import Mathlib

/-!
Verification of the `gotreap` repository (an ordered treap container in Go,
files `node.go` and `treap.go`, package `gotreap`).

Embedding notes.
* Go nodes are heap objects linked by pointers (`left`, `right`, `parent`)
  and mutated in place.  We embed them as a functional tree in which every
  node additionally carries
  - `id : Nat` — the node's identity (the model of its address; `newNode`
    receives a fresh id the way the Go allocator hands out a fresh address),
  - `parent : Option Nat` — the *content* of the mutable `parent` field,
    namely the id of the node it points to (`none` models a nil pointer).
  In-place mutation of a field becomes functional update; the tree returned
  by an operation is the post-state of the node graph reachable from the
  returned root.  A pointer into the middle of a tree is modelled by the
  root-to-node path (`Path`); dereferencing is `subtreeAt`.
* `heightPriority` (a Go `int` from `randFn()`) is an unconstrained `Int`;
  the injectable randomness source `randFn` is modelled by passing each
  freshly drawn priority (and fresh id) as an explicit argument, so all
  theorems hold for every possible random sequence.  Sizes and indices are
  `Int` like the Go `int`; the values involved never approach overflow.
* `Node.inorder` is the in-order traversal (the Go test helpers
  `mustInOrder`/`mustValues` compute exactly this list).
* `sort.Slice(values, lessFn)` in `NewTreapWithRand` is an unstable
  comparison sort; it is modelled by `List.mergeSort`, which produces the
  same sorted result up to the (unspecified) order of ties.
* Go `panic` is modelled by `Except.error`; operations that may panic
  return the error together with the container state at the moment of the
  panic (the checks in the source run before any mutation).
-/

namespace Gotreap

universe u

/-- Translation of the Go struct `Node[T]` (src/node.go): `value`,
`heightPriority`, owned children `left`/`right`, the mutable `parent`
back-reference (stored as the id of the parent node, `none` = nil) and the
cached subtree `size`.  The extra `id` field models the node's address. -/
inductive Node (T : Type u) : Type u where
  | nil : Node T
  | node (id : Nat) (value : T) (heightPriority : Int)
      (left : Node T) (right : Node T)
      (parent : Option Nat) (size : Int) : Node T

namespace Node

variable {T : Type u}

/-- Number of constructors; used only for termination of `merge`. -/
def tsize : Node T → Nat
  | .nil => 0
  | .node _ _ _ l r _ _ => l.tsize + r.tsize + 1

/-- Translation of `safeSize` (src/node.go): the stored subtree size,
treating a nil node as zero. -/
def safeSize : Node T → Int
  | .nil => 0
  | .node _ _ _ _ _ _ sz => sz

/-- Translation of `recalcSize` (src/node.go): recompute the receiver's
`size` field from the children's stored sizes. -/
def recalcSize : Node T → Node T
  | .nil => .nil
  | .node i v p l r par _ => .node i v p l r par (l.safeSize + 1 + r.safeSize)

/-- Translation of `safeSetParent` (src/node.go): assign the `parent`
field when the receiver is non-nil.  The argument is the pointed-to node's
id (`none` = nil pointer). -/
def safeSetParent : Node T → Option Nat → Node T
  | .nil, _ => .nil
  | .node i v p l r _ sz, q => .node i v p l r q sz

/-- Translation of `newNode` (src/node.go); the fresh random priority and
the fresh address are passed in explicitly. -/
def newNode (value : T) (heightPriority : Int) (id : Nat) : Node T :=
  .node id value heightPriority .nil .nil none 1

/-- The id of a non-nil node (the model of the pointer's value). -/
def nodeId : Node T → Option Nat
  | .nil => none
  | .node i _ _ _ _ _ _ => some i

/-- The value stored at a non-nil node (Go `Value()` returns the zero
value for nil; we return `none`). -/
def Value : Node T → Option T
  | .nil => none
  | .node _ v _ _ _ _ _ => some v

/-- The priority stored at a non-nil node. -/
def prioOf : Node T → Option Int
  | .nil => none
  | .node _ _ p _ _ _ _ => some p

/-- Content of the `parent` field (`none` for nil nodes / nil pointers). -/
def pf : Node T → Option Nat
  | .nil => none
  | .node _ _ _ _ _ par _ => par

/-- In-order traversal, exactly as computed by the repository's test
helpers `mustInOrder` / `mustValues`. -/
def inorder : Node T → List T
  | .nil => []
  | .node _ v _ l r _ _ => l.inorder ++ v :: r.inorder

end Node

/-- Translation of `merge` (src/node.go).  The Go comparison
`left.heightPriority >= right.heightPriority` selects which root survives;
the surviving root's inner child is replaced by the recursive merge, is
re-parented to the surviving root, and the size is recomputed on the way
out. -/
def merge {T : Type u} : Node T → Node T → Node T
  | .nil, right => right
  | left, .nil => left
  | .node li lv lp ll lr lpar ls, .node ri rv rp rl rr rpar rs =>
    if lp ≥ rp then
      ((Node.node li lv lp ll
        ((merge lr (.node ri rv rp rl rr rpar rs)).safeSetParent (some li))
        lpar ls).recalcSize)
    else
      ((Node.node ri rv rp
        ((merge (.node li lv lp ll lr lpar ls) rl).safeSetParent (some ri))
        rr rpar rs).recalcSize)
  termination_by l r => l.tsize + r.tsize
  decreasing_by
    · simp [Node.tsize]; omega
    · simp [Node.tsize]; omega

namespace Node

variable {T : Type u}

/-- Translation of `leftCondition[T]` (src/node.go). -/
abbrev leftCond (T : Type u) := T → Int → Bool

/-- Translation of `split` (src/node.go): partition according to the
predicate evaluated at each node's absolute in-order position
(`indexOffset + size(left)`), repairing parent pointers and sizes along
the walked path. -/
def split : Node T → leftCond T → Int → Node T × Node T
  | .nil, _, _ => (.nil, .nil)
  | .node i v p l r par sz, cond, indexOffset =>
    let centralIndexOffset := indexOffset + l.safeSize
    if cond v centralIndexOffset then
      let res := r.split cond (centralIndexOffset + 1)
      ((Node.node i v p l (res.1.safeSetParent (some i)) par sz).recalcSize,
        res.2.safeSetParent none)
    else
      let res := l.split cond indexOffset
      (res.1.safeSetParent none,
        (Node.node i v p (res.2.safeSetParent (some i)) r par sz).recalcSize)

/-- Translation of `lookupLeftmostUnmatch` (src/node.go): the leftmost
node failing the predicate, with its absolute index. -/
def lookupLeftmostUnmatch : Node T → leftCond T → Int → Option (Node T) × Int
  | .nil, _, _ => (none, 0)
  | .node i v p l r par sz, cond, indexOffset =>
    let centralIndexOffset := indexOffset + l.safeSize
    if cond v centralIndexOffset then
      r.lookupLeftmostUnmatch cond (centralIndexOffset + 1)
    else
      match l.lookupLeftmostUnmatch cond indexOffset with
      | (some res, idx) => (some res, idx)
      | (none, _) => (some (.node i v p l r par sz), centralIndexOffset)

/-- Translation of `lookupRightmostMatch` (src/node.go): the rightmost
node satisfying the predicate, with its absolute index. -/
def lookupRightmostMatch : Node T → leftCond T → Int → Option (Node T) × Int
  | .nil, _, _ => (none, 0)
  | .node i v p l r par sz, cond, indexOffset =>
    let centralIndexOffset := indexOffset + l.safeSize
    if cond v centralIndexOffset then
      match r.lookupRightmostMatch cond (centralIndexOffset + 1) with
      | (some res, idx) => (some res, idx)
      | (none, _) => (some (.node i v p l r par sz), centralIndexOffset)
    else
      l.lookupRightmostMatch cond indexOffset

end Node

/-- A direction taken when descending from a node to a child. -/
inductive Dir : Type where
  | left : Dir
  | right : Dir
deriving DecidableEq, Repr

/-- A pointer to a node inside a tree, modelled as the root-to-node path
(the information carried by the chain of `parent` pointers when the
parent invariant holds). -/
abbrev Path := List Dir

namespace Node

variable {T : Type u}

/-- Dereference a path: the node it points at (`none` when the path walks
off the tree). -/
def subtreeAt : Node T → Path → Option (Node T)
  | .nil, _ => none
  | .node i v p l r par sz, [] => some (.node i v p l r par sz)
  | .node _ _ _ l _ _ _, .left :: ds => l.subtreeAt ds
  | .node _ _ _ _ r _ _, .right :: ds => r.subtreeAt ds

/-- Translation of `Index` (src/node.go) with the pointed-at node given as
a path.  The Go code starts from `size(n.left)` and, climbing the parent
chain, adds `size(parent.left) + 1` for every edge crossed from a right
child; summing those contributions from the root downward along the path
yields exactly the expression below. -/
def Index : Node T → Path → Int
  | .nil, _ => 0
  | .node _ _ _ l _ _ _, [] => l.safeSize
  | .node _ _ _ l _ _ _, .left :: ds => l.Index ds
  | .node _ _ _ l r _ _, .right :: ds => l.safeSize + 1 + r.Index ds

end Node

/-- Translation of the Go struct `Treap[T]` (src/treap.go).  The
`randFn` field is represented by passing each drawn priority explicitly
to the operations that allocate nodes. -/
structure Treap (T : Type u) : Type u where
  lessFn : T → T → Bool
  root : Node T

namespace Treap

variable {T : Type u}

/-- Translation of `condLess` (src/treap.go). -/
def condLess (t : Treap T) (value : T) : Node.leftCond T :=
  fun nodeValue _ => t.lessFn nodeValue value

/-- Translation of `condLeq` (src/treap.go). -/
def condLeq (t : Treap T) (value : T) : Node.leftCond T :=
  fun nodeValue _ => !(t.lessFn value nodeValue)

/-- Translation of `condCutN` (src/treap.go). -/
def condCutN (_t : Treap T) (n : Int) : Node.leftCond T :=
  fun _ nodeIndex => decide (nodeIndex < n)

/-- Translation of `InsertLeft` (src/treap.go); returns the new node's
index together with the post-state. -/
def InsertLeft (t : Treap T) (value : T) (prio : Int) (id : Nat) :
    Int × Treap T :=
  let s := t.root.split (t.condLess value) 0
  let index := s.1.safeSize
  let greaterOrEqual := merge (Node.newNode value prio id) s.2
  (index, { t with root := merge s.1 greaterOrEqual })

/-- Translation of `InsertRight` (src/treap.go). -/
def InsertRight (t : Treap T) (value : T) (prio : Int) (id : Nat) :
    Int × Treap T :=
  let s := t.root.split (t.condLeq value) 0
  let index := s.1.safeSize
  let lessOrEqual := merge s.1 (Node.newNode value prio id)
  (index, { t with root := merge lessOrEqual s.2 })

/-- Translation of `EraseAll` (src/treap.go). -/
def EraseAll (t : Treap T) (value : T) : Int × Treap T :=
  let s := t.root.split (t.condLess value) 0
  let s2 := s.2.split (t.condLeq value) 0
  (s2.1.safeSize, { t with root := merge s.1 s2.2 })

/-- Translation of `EraseLeftmost` (src/treap.go): a negative `n` is
replaced by the size of the equal run. -/
def EraseLeftmost (t : Treap T) (value : T) (n : Int) : Int × Treap T :=
  let s := t.root.split (t.condLess value) 0
  let s2 := s.2.split (t.condLeq value) 0
  let n' := if n < 0 then s2.1.safeSize else n
  let s3 := s2.1.split (t.condCutN n') 0
  (s3.1.safeSize, { t with root := merge s.1 (merge s3.2 s2.2) })

/-- Translation of `EraseRightmost` (src/treap.go). -/
def EraseRightmost (t : Treap T) (value : T) (n : Int) : Int × Treap T :=
  let s := t.root.split (t.condLess value) 0
  let s2 := s.2.split (t.condLeq value) 0
  let n' := if n < 0 then s2.1.safeSize else n
  let remainderN := s2.1.safeSize - n'
  let s3 := s2.1.split (t.condCutN remainderN) 0
  (s3.2.safeSize, { t with root := merge s.1 (merge s3.1 s2.2) })

/-- Translation of `EraseRange` (src/treap.go).  The two `panic` calls are
modelled by `Except.error`; the second component is the container state
when the call returns or aborts (the checks precede every mutation, so on
abort it is the input state). -/
def EraseRange (t : Treap T) (startValue : T) (inclusiveStart : Bool)
    (endValue : T) (inclusiveEnd : Bool) : Except String Int × Treap T :=
  if t.lessFn endValue startValue then
    (.error "provided endValue must not be lower than startValue", t)
  else if !(t.lessFn startValue endValue) && (!inclusiveStart || !inclusiveEnd) then
    (.error "when startValue == endValue, both start and end must be inclusive", t)
  else
    let s :=
      if inclusiveStart then t.root.split (t.condLess startValue) 0
      else t.root.split (t.condLeq startValue) 0
    let s2 :=
      if inclusiveEnd then s.2.split (t.condLeq endValue) 0
      else s.2.split (t.condLess endValue) 0
    (.ok s2.1.safeSize, { t with root := merge s.1 s2.2 })

/-- Translation of `EraseAt` (src/treap.go): panics on a negative count,
supports negative indices, returns 0 when the normalized index is out of
bounds. -/
def EraseAt (t : Treap T) (index : Int) (count : Int) :
    Except String Int × Treap T :=
  if count < 0 then
    (.error "count must not be negative", t)
  else
    let sz := t.root.safeSize
    if sz = 0 then (.ok 0, t)
    else
      let index' := if index < 0 then sz + index else index
      if index' < 0 ∨ index' ≥ sz then (.ok 0, t)
      else
        let s := t.root.split (t.condCutN index') 0
        let s2 := s.2.split (t.condCutN count) 0
        (.ok s2.1.safeSize, { t with root := merge s.1 s2.2 })

/-- Translation of `At` (src/treap.go): bounds-checked, Python-style
negative indices, then a `condCutN` threshold lookup. -/
def At (t : Treap T) (index : Int) : Option (Node T) :=
  let sz := t.root.safeSize
  if sz = 0 ∨ index < -sz ∨ index ≥ sz then none
  else
    let index' := if index < 0 then sz + index else index
    (t.root.lookupLeftmostUnmatch (t.condCutN index') 0).1

/-- Translation of `Size` (src/treap.go). -/
def Size (t : Treap T) : Int := t.root.safeSize

/-- Translation of `Empty` (src/treap.go). -/
def Empty (t : Treap T) : Bool := t.root.safeSize = 0

/-- Translation of `Clear` (src/treap.go). -/
def Clear (t : Treap T) : Treap T := { t with root := .nil }

/-- Translation of `PopLeftmost` (src/treap.go). -/
def PopLeftmost (t : Treap T) : Option T × Treap T :=
  match t.root with
  | .nil => (none, t)
  | .node _ _ _ _ _ _ _ =>
    let s := t.root.split (t.condCutN 1) 0
    (s.1.Value, { t with root := s.2 })

/-- Translation of `PopRightmost` (src/treap.go). -/
def PopRightmost (t : Treap T) : Option T × Treap T :=
  match t.root with
  | .nil => (none, t)
  | .node _ _ _ _ _ _ _ =>
    let cutN := t.root.safeSize - 1
    let s := t.root.split (t.condCutN cutN) 0
    (s.2.Value, { t with root := s.1 })

/-- Translation of the private container `split` (src/treap.go): two new
containers sharing `lessFn`, receiver emptied. -/
def splitT (t : Treap T) (cond : Node.leftCond T) :
    Treap T × Treap T × Treap T :=
  let s := t.root.split cond 0
  (⟨t.lessFn, s.1⟩, ⟨t.lessFn, s.2⟩, { t with root := .nil })

/-- Translation of `SplitBefore` (src/treap.go); the third component is
the emptied receiver. -/
def SplitBefore (t : Treap T) (value : T) : Treap T × Treap T × Treap T :=
  t.splitT (t.condLess value)

/-- Translation of `SplitAfter` (src/treap.go). -/
def SplitAfter (t : Treap T) (value : T) : Treap T × Treap T × Treap T :=
  t.splitT (t.condLeq value)

/-- Translation of `Cut` (src/treap.go): negative `n` counts from the end
and clamps at zero. -/
def Cut (t : Treap T) (n : Int) : Treap T × Treap T × Treap T :=
  let n' :=
    if n < 0 then
      let sz := t.root.safeSize
      if sz + n < 0 then 0 else sz + n
    else n
  t.splitT (t.condCutN n')

/-- Translation of `CountRange` (src/treap.go); panics modelled by
`Except.error`.  The receiver is not mutated. -/
def CountRange (t : Treap T) (startValue : T) (inclusiveStart : Bool)
    (endValue : T) (inclusiveEnd : Bool) : Except String Int :=
  if t.lessFn endValue startValue then
    .error "provided endValue must not be lower than startValue"
  else if !(t.lessFn startValue endValue) && (!inclusiveStart || !inclusiveEnd) then
    .error "when startValue == endValue, both start and end must be inclusive"
  else
    let st :=
      if inclusiveStart then t.root.lookupLeftmostUnmatch (t.condLess startValue) 0
      else t.root.lookupLeftmostUnmatch (t.condLeq startValue) 0
    if st.1.isNone then .ok 0
    else
      let en :=
        if inclusiveEnd then t.root.lookupRightmostMatch (t.condLeq endValue) 0
        else t.root.lookupRightmostMatch (t.condLess endValue) 0
      if en.1.isNone then .ok 0
      else if en.2 < st.2 then .ok 0 else .ok (en.2 - st.2 + 1)

end Treap

/-- Translation of `NewTreapWithRand` (src/treap.go): sort the initial
values with `lessFn` (Go uses the unstable `sort.Slice`; `mergeSort`
produces the same sorted result up to tie order), then fold them in with
`merge`, drawing a priority and a fresh id for each. -/
def NewTreapWithRand (lessFn : T → T → Bool) (values : List T)
    (prios : Nat → Int) (ids : Nat → Nat) : Treap T :=
  let sortedValues := values.mergeSort (fun a b => !(lessFn b a))
  { lessFn := lessFn
    root := (sortedValues.enum).foldl
      (fun acc p => merge acc (Node.newNode p.2 (prios p.1) (ids p.1)))
      Node.nil }

/-- Translation of the free function `Merge` (src/treap.go).  The Go body
reads `left.root`/`right.root` and builds a new container; it never
assigns to the source containers' fields, so the post-states of the two
sources (returned as the second and third components) are their input
states. -/
def Merge (left : Treap T) (right : Treap T) :
    Treap T × Treap T × Treap T :=
  (⟨left.lessFn, merge left.root right.root⟩, left, right)

/-! ## Structural invariants (spec §3) -/

namespace Node

variable {T : Type u}

/-- The root priority of `t` is at most `q` (trivially true for nil). -/
def prioLe : Node T → Int → Prop
  | .nil, _ => True
  | .node _ _ p _ _ _ _, q => p ≤ q

/-- Max-heap invariant: every node's priority is ≥ both children's. -/
def heapOK : Node T → Prop
  | .nil => True
  | .node _ _ p l r _ _ => l.prioLe p ∧ r.prioLe p ∧ l.heapOK ∧ r.heapOK

/-- Size invariant: every cached `size` field equals the number of nodes
in its subtree. -/
def sizeOK : Node T → Prop
  | .nil => True
  | .node _ _ _ l r _ sz =>
      l.sizeOK ∧ r.sizeOK ∧ sz = (l.inorder.length : Int) + 1 + (r.inorder.length : Int)

/-- Parent-pointer invariant: each non-nil child's `parent` field holds
the id of the node that owns it. -/
def parentOK : Node T → Prop
  | .nil => True
  | .node i _ _ l r _ _ =>
      l.parentOK ∧ r.parentOK ∧
        (l ≠ .nil → l.pf = some i) ∧ (r ≠ .nil → r.pf = some i)

end Node

/-- Non-decreasing under the comparator: no later element is less than an
earlier one (the BST invariant on the in-order traversal, duplicates
permitted). -/
def Sorted (lt : T → T → Bool) (l : List T) : Prop :=
  l.Pairwise (fun a b => lt b a = false)

/-- `lt` is a strict total order given as a boolean predicate. -/
structure IsSTO (lt : T → T → Bool) : Prop where
  irrefl : ∀ a, lt a a = false
  trans : ∀ a b c, lt a b = true → lt b c = true → lt a c = true
  total : ∀ a b, lt a b = true ∨ a = b ∨ lt b a = true

/-- All four structural invariants of spec §3 for a tree that is the root
of a container (or a freshly detached subtree): BST order of the in-order
traversal, max-heap priorities, correct cached sizes, consistent parent
pointers, and an absent parent at the root. -/
def InvRoot (lt : T → T → Bool) (t : Node T) : Prop :=
  Sorted lt t.inorder ∧ t.heapOK ∧ t.sizeOK ∧ t.parentOK ∧ t.pf = none

/-- Container invariant: `InvRoot` for the root under the container's own
comparator. -/
def Inv (t : Treap T) : Prop := InvRoot t.lessFn t.root

section ListPredicates

variable {T : Type u}

/-- Length of the initial run of positions satisfying `P` (evaluated at
absolute indices starting from `off`). -/
def prefLen (P : Node.leftCond T) : List T → Int → Nat
  | [], _ => 0
  | x :: xs, off => if P x off then prefLen P xs (off + 1) + 1 else 0

/-- `P` holds at every position of `l` (absolute indices from `off`). -/
def AllTrue (P : Node.leftCond T) (l : List T) (off : Int) : Prop :=
  ∀ (i : Nat) (x : T), l[i]? = some x → P x (off + i) = true

/-- `P` is a threshold predicate over `l`: true on a prefix of positions,
false afterwards (spec §4.2's monotonicity precondition). -/
def Mono (P : Node.leftCond T) (l : List T) (off : Int) : Prop :=
  ∀ (i j : Nat) (x y : T), i ≤ j → l[i]? = some x → l[j]? = some y →
    P y (off + j) = true → P x (off + i) = true

end ListPredicates

/-- The path to the node at in-order position `k` (proof-side inverse of
`Node.Index`). -/
def pathTo {T : Type u} : Node T → Nat → Path
  | .nil, _ => []
  | .node _ _ _ l r _ _, k =>
    if k < l.inorder.length then .left :: pathTo l k
    else if k = l.inorder.length then []
    else .right :: pathTo r (k - l.inorder.length - 1)

/-- A mutating public container operation (the read-only operations do
not change the structure).  Fresh priorities/ids drawn inside an
operation are explicit arguments, like the `randFn` results they model. -/
inductive Op (T : Type u) : Type u where
  | insertLeft (v : T) (prio : Int) (id : Nat) : Op T
  | insertRight (v : T) (prio : Int) (id : Nat) : Op T
  | eraseAll (v : T) : Op T
  | eraseLeftmost (v : T) (n : Int) : Op T
  | eraseRightmost (v : T) (n : Int) : Op T
  | eraseRange (s : T) (iS : Bool) (e : T) (iE : Bool) : Op T
  | eraseAt (i : Int) (c : Int) : Op T
  | popLeftmost : Op T
  | popRightmost : Op T
  | clear : Op T
  | splitBefore (v : T) : Op T
  | splitAfter (v : T) : Op T
  | cut (n : Int) : Op T

/-- Apply one public operation; the result lists every container alive
when the call returns (the receiver's post-state, plus the two freshly
produced containers for the splitting operations). -/
def applyOp {T : Type u} (t : Treap T) : Op T → List (Treap T)
  | .insertLeft v prio id => [(t.InsertLeft v prio id).2]
  | .insertRight v prio id => [(t.InsertRight v prio id).2]
  | .eraseAll v => [(t.EraseAll v).2]
  | .eraseLeftmost v n => [(t.EraseLeftmost v n).2]
  | .eraseRightmost v n => [(t.EraseRightmost v n).2]
  | .eraseRange s iS e iE => [(t.EraseRange s iS e iE).2]
  | .eraseAt i c => [(t.EraseAt i c).2]
  | .popLeftmost => [(t.PopLeftmost).2]
  | .popRightmost => [(t.PopRightmost).2]
  | .clear => [t.Clear]
  | .splitBefore v =>
    [(t.SplitBefore v).1, (t.SplitBefore v).2.1, (t.SplitBefore v).2.2]
  | .splitAfter v =>
    [(t.SplitAfter v).1, (t.SplitAfter v).2.1, (t.SplitAfter v).2.2]
  | .cut n => [(t.Cut n).1, (t.Cut n).2.1, (t.Cut n).2.2]

/-- An insertion call, for the all-insert-sequences property. -/
inductive InsOp (T : Type u) : Type u where
  | left (v : T) (prio : Int) (id : Nat) : InsOp T
  | right (v : T) (prio : Int) (id : Nat) : InsOp T

/-- The value an insertion call carries. -/
def insValue {T : Type u} : InsOp T → T
  | .left v _ _ => v
  | .right v _ _ => v

/-- Apply one insertion to the container. -/
def applyIns {T : Type u} (t : Treap T) : InsOp T → Treap T
  | .left v prio id => (t.InsertLeft v prio id).2
  | .right v prio id => (t.InsertRight v prio id).2

/-- Apply a whole sequence of insertions. -/
def applyInsList {T : Type u} (t : Treap T) (ops : List (InsOp T)) : Treap T :=
  ops.foldl applyIns t

/-- The list-level meaning of one insertion on a sorted traversal:
`InsertLeft` places the new value before every element not below it (so
before all equal values already present), `InsertRight` places it after
every element not above it (so after all equal values already present). -/
def listIns {T : Type u} (lt : T → T → Bool) (l : List T) : InsOp T → List T
  | .left v _ _ =>
    l.takeWhile (fun x => lt x v) ++ v :: l.dropWhile (fun x => lt x v)
  | .right v _ _ =>
    l.takeWhile (fun x => !(lt v x)) ++ v :: l.dropWhile (fun x => !(lt v x))

theorem IsSTO.asymm {lt : T → T → Bool} (h : IsSTO lt) {a b : T}
    (hab : lt a b = true) : lt b a = false := by
  cases hba : lt b a with
  | false => rfl
  | true =>
    have := h.trans a b a hab hba
    rw [h.irrefl a] at this
    simp at this

theorem IsSTO.not_lt_trans {lt : T → T → Bool} (h : IsSTO lt) {a b c : T}
    (hab : lt a b = false) (hbc : lt b c = false) : lt a c = false := by
  cases hac : lt a c with
  | false => rfl
  | true =>
    rcases h.total a b with hx | hx | hx
    · rw [hx] at hab; simp at hab
    · subst hx; rw [hac] at hbc; simp at hbc
    · have := h.trans b a c hx hac
      rw [this] at hbc; simp at hbc

theorem IsSTO.eq_of_not_lt {lt : T → T → Bool} (h : IsSTO lt) {a b : T}
    (hab : lt a b = false) (hba : lt b a = false) : a = b := by
  rcases h.total a b with hx | hx | hx
  · rw [hx] at hab; simp at hab
  · exact hx
  · rw [hx] at hba; simp at hba

/-! ## Basic preservation lemmas for the field-update helpers -/

namespace Node

variable {T : Type u}

@[simp] theorem inorder_safeSetParent (t : Node T) (q : Option Nat) :
    (t.safeSetParent q).inorder = t.inorder := by
  cases t <;> simp [safeSetParent, inorder]

@[simp] theorem safeSize_safeSetParent (t : Node T) (q : Option Nat) :
    (t.safeSetParent q).safeSize = t.safeSize := by
  cases t <;> simp [safeSetParent, safeSize]

@[simp] theorem inorder_recalcSize (t : Node T) :
    t.recalcSize.inorder = t.inorder := by
  cases t <;> simp [recalcSize, inorder]

theorem sizeOK_safeSize {t : Node T} (h : t.sizeOK) :
    t.safeSize = (t.inorder.length : Int) := by
  cases t with
  | nil => simp [safeSize, inorder]
  | node i v p l r par sz =>
    obtain ⟨-, -, hsz⟩ := h
    simp [safeSize, inorder, hsz]
    omega

theorem heapOK_safeSetParent {t : Node T} (h : t.heapOK) (q : Option Nat) :
    (t.safeSetParent q).heapOK := by
  cases t
  · simp [safeSetParent, heapOK]
  · simpa [safeSetParent, heapOK] using h

theorem prioLe_safeSetParent {t : Node T} {m : Int} (h : t.prioLe m)
    (q : Option Nat) : (t.safeSetParent q).prioLe m := by
  cases t
  · simp [safeSetParent, prioLe]
  · simpa [safeSetParent, prioLe] using h

theorem sizeOK_safeSetParent {t : Node T} (h : t.sizeOK) (q : Option Nat) :
    (t.safeSetParent q).sizeOK := by
  cases t
  · simp [safeSetParent, sizeOK]
  · simpa [safeSetParent, sizeOK] using h

theorem parentOK_safeSetParent {t : Node T} (h : t.parentOK) (q : Option Nat) :
    (t.safeSetParent q).parentOK := by
  cases t
  · simp [safeSetParent, parentOK]
  · simpa [safeSetParent, parentOK] using h

theorem pf_safeSetParent_of_ne_nil {t : Node T} (h : t ≠ .nil) (q : Option Nat) :
    (t.safeSetParent q).pf = q := by
  cases t with
  | nil => exact absurd rfl h
  | node i v p l r par sz => simp [safeSetParent, pf]

theorem safeSetParent_ne_nil {t : Node T} (h : t ≠ .nil) (q : Option Nat) :
    t.safeSetParent q ≠ .nil := by
  cases t with
  | nil => exact absurd rfl h
  | node i v p l r par sz => simp [safeSetParent]

@[simp] theorem safeSetParent_eq_nil_iff (t : Node T) (q : Option Nat) :
    t.safeSetParent q = .nil ↔ t = .nil := by
  cases t <;> simp [safeSetParent]

@[simp] theorem pf_recalcSize (t : Node T) : t.recalcSize.pf = t.pf := by
  cases t <;> simp [recalcSize, pf]

end Node

/-! ## Lemmas about `merge` -/

section MergeLemmas

variable {T : Type u}

theorem inorder_merge (l r : Node T) :
    (merge l r).inorder = l.inorder ++ r.inorder := by
  induction l, r using merge.induct with
  | case1 right => simp [merge, Node.inorder]
  | case2 left => cases left <;> simp [merge, Node.inorder]
  | case3 li lv lp ll lr lpar ls ri rv rp rl rr rpar rs hge ih =>
    rw [merge]
    simp only [if_pos hge, Node.inorder_recalcSize, Node.inorder,
      Node.inorder_safeSetParent, ih]
    simp [Node.inorder]
  | case4 li lv lp ll lr lpar ls ri rv rp rl rr rpar rs hge ih =>
    rw [merge]
    simp only [if_neg hge, Node.inorder_recalcSize, Node.inorder,
      Node.inorder_safeSetParent, ih]
    simp [Node.inorder]

theorem sizeOK_merge {l r : Node T} (hl : l.sizeOK) (hr : r.sizeOK) :
    (merge l r).sizeOK := by
  induction l, r using merge.induct with
  | case1 right => simpa [merge] using hr
  | case2 left => cases left <;> simpa [merge] using hl
  | case3 li lv lp ll lr lpar ls ri rv rp rl rr rpar rs hge ih =>
    obtain ⟨hll, hlr, -⟩ := hl
    have hm := ih hlr hr
    rw [merge]
    simp only [if_pos hge, Node.recalcSize]
    refine ⟨hll, Node.sizeOK_safeSetParent hm _, ?_⟩
    rw [Node.sizeOK_safeSize hll, Node.sizeOK_safeSize (Node.sizeOK_safeSetParent hm _)]
  | case4 li lv lp ll lr lpar ls ri rv rp rl rr rpar rs hge ih =>
    obtain ⟨hrl, hrr, -⟩ := hr
    have hm := ih hl hrl
    rw [merge]
    simp only [if_neg hge, Node.recalcSize]
    refine ⟨Node.sizeOK_safeSetParent hm _, hrr, ?_⟩
    rw [Node.sizeOK_safeSize hrr, Node.sizeOK_safeSize (Node.sizeOK_safeSetParent hm _)]

theorem prioLe_merge {l r : Node T} {q : Int} (hl : l.prioLe q) (hr : r.prioLe q) :
    (merge l r).prioLe q := by
  induction l, r using merge.induct with
  | case1 right => simpa [merge] using hr
  | case2 left => cases left <;> simpa [merge] using hl
  | case3 li lv lp ll lr lpar ls ri rv rp rl rr rpar rs hge ih =>
    rw [merge]
    simp only [if_pos hge, Node.recalcSize, Node.prioLe]
    exact hl
  | case4 li lv lp ll lr lpar ls ri rv rp rl rr rpar rs hge ih =>
    rw [merge]
    simp only [if_neg hge, Node.recalcSize, Node.prioLe]
    exact hr

theorem heapOK_merge {l r : Node T} (hl : l.heapOK) (hr : r.heapOK) :
    (merge l r).heapOK := by
  induction l, r using merge.induct with
  | case1 right => simpa [merge] using hr
  | case2 left => cases left <;> simpa [merge] using hl
  | case3 li lv lp ll lr lpar ls ri rv rp rl rr rpar rs hge ih =>
    obtain ⟨hpll, hplr, hhll, hhlr⟩ := hl
    rw [merge]
    simp only [if_pos hge, Node.recalcSize, Node.heapOK]
    refine ⟨hpll, ?_, hhll, Node.heapOK_safeSetParent (ih hhlr hr) _⟩
    refine Node.prioLe_safeSetParent (prioLe_merge hplr ?_) _
    simpa [Node.prioLe] using hge
  | case4 li lv lp ll lr lpar ls ri rv rp rl rr rpar rs hge ih =>
    obtain ⟨hprl, hprr, hhrl, hhrr⟩ := hr
    rw [merge]
    simp only [if_neg hge, Node.recalcSize, Node.heapOK]
    refine ⟨?_, hprr, Node.heapOK_safeSetParent (ih hl hhrl) _, hhrr⟩
    refine Node.prioLe_safeSetParent (prioLe_merge ?_ hprl) _
    simp only [Node.prioLe]
    omega

theorem parentOK_merge {l r : Node T} (hl : l.parentOK) (hr : r.parentOK) :
    (merge l r).parentOK := by
  induction l, r using merge.induct with
  | case1 right => simpa [merge] using hr
  | case2 left => cases left <;> simpa [merge] using hl
  | case3 li lv lp ll lr lpar ls ri rv rp rl rr rpar rs hge ih =>
    obtain ⟨hpll, hplr, hcl, -⟩ := hl
    rw [merge]
    simp only [if_pos hge, Node.recalcSize, Node.parentOK]
    refine ⟨hpll, Node.parentOK_safeSetParent (ih hplr hr) _, hcl, ?_⟩
    intro hne
    exact Node.pf_safeSetParent_of_ne_nil (by simpa using hne) _
  | case4 li lv lp ll lr lpar ls ri rv rp rl rr rpar rs hge ih =>
    obtain ⟨hprl, hprr, hcl, hcr⟩ := hr
    rw [merge]
    simp only [if_neg hge, Node.recalcSize, Node.parentOK]
    refine ⟨Node.parentOK_safeSetParent (ih hl hprl) _, hprr, ?_, hcr⟩
    intro hne
    exact Node.pf_safeSetParent_of_ne_nil (by simpa using hne) _

theorem pf_merge_none {l r : Node T} (hl : l.pf = none) (hr : r.pf = none) :
    (merge l r).pf = none := by
  cases l with
  | nil => simpa [merge] using hr
  | node li lv lp ll lr lpar ls =>
    cases r with
    | nil => simpa [merge] using hl
    | node ri rv rp rl rr rpar rs =>
      rw [merge]
      by_cases hge : lp ≥ rp
      · simp only [if_pos hge, Node.pf_recalcSize]
        simpa [Node.pf] using hl
      · simp only [if_neg hge, Node.pf_recalcSize]
        simpa [Node.pf] using hr

theorem nodeId_merge_left {T : Type u} (li : Nat) (lv : T) (lp : Int)
    (ll lr : Node T) (lpar : Option Nat) (ls : Int) (ri : Nat) (rv : T)
    (rp : Int) (rl rr : Node T) (rpar : Option Nat) (rs : Int)
    (hge : lp ≥ rp) :
    (merge (Node.node li lv lp ll lr lpar ls)
      (Node.node ri rv rp rl rr rpar rs)).nodeId = some li := by
  rw [merge]
  simp only [if_pos hge]
  simp [Node.recalcSize, Node.nodeId]

theorem nodeId_merge_right {T : Type u} (li : Nat) (lv : T) (lp : Int)
    (ll lr : Node T) (lpar : Option Nat) (ls : Int) (ri : Nat) (rv : T)
    (rp : Int) (rl rr : Node T) (rpar : Option Nat) (rs : Int)
    (hlt : ¬(lp ≥ rp)) :
    (merge (Node.node li lv lp ll lr lpar ls)
      (Node.node ri rv rp rl rr rpar rs)).nodeId = some ri := by
  rw [merge]
  simp only [if_neg hlt]
  simp [Node.recalcSize, Node.nodeId]

end MergeLemmas

/-! ## The split predicate calculus: monotone predicates over the
in-order sequence cut it into a prefix and a suffix -/

section PrefLen

variable {T : Type u}

theorem Mono.append_left {P : Node.leftCond T} {a b : List T} {off : Int}
    (h : Mono P (a ++ b) off) : Mono P a off := by
  intro i j x y hij hx hy hPy
  obtain ⟨hj, -⟩ := List.getElem?_eq_some.1 hy
  obtain ⟨hi, -⟩ := List.getElem?_eq_some.1 hx
  refine h i j x y hij ?_ ?_ hPy
  · rw [List.getElem?_append, if_pos (by simpa using Nat.lt_of_lt_of_le hi (Nat.le.refl))]
    exact hx
  · rw [List.getElem?_append, if_pos (by simpa using hj)]
    exact hy

theorem Mono.append_right {P : Node.leftCond T} {a b : List T} {off : Int}
    (h : Mono P (a ++ b) off) : Mono P b (off + a.length) := by
  intro i j x y hij hx hy hPy
  have hx' : (a ++ b)[a.length + i]? = some x := by
    rw [List.getElem?_append_right (Nat.le_add_right _ _)]
    simpa using hx
  have hy' : (a ++ b)[a.length + j]? = some y := by
    rw [List.getElem?_append_right (Nat.le_add_right _ _)]
    simpa using hy
  have := h (a.length + i) (a.length + j) x y (by omega) hx' hy'
    (by convert hPy using 2; push_cast; ring)
  convert this using 2
  push_cast
  ring

theorem Mono.allTrue_left {P : Node.leftCond T} {a b : List T} {v : T}
    {off : Int} (h : Mono P (a ++ v :: b) off)
    (hv : P v (off + a.length) = true) : AllTrue P a off := by
  intro i x hx
  obtain ⟨hi, -⟩ := List.getElem?_eq_some.1 hx
  refine h i a.length x v (Nat.le_of_lt hi) ?_ ?_ hv
  · rw [List.getElem?_append, if_pos (by simpa using hi)]
    exact hx
  · rw [List.getElem?_append_right (Nat.le_refl _)]
    simp

theorem AllTrue.shift {P : Node.leftCond T} {x : T} {xs : List T} {off : Int}
    (h : AllTrue P (x :: xs) off) : AllTrue P xs (off + 1) := by
  intro i y hy
  have := h (i + 1) y (by simpa using hy)
  convert this using 2
  push_cast
  ring

theorem AllTrue.head {P : Node.leftCond T} {x : T} {xs : List T} {off : Int}
    (h : AllTrue P (x :: xs) off) : P x off = true := by
  have := h 0 x (by simp)
  simpa using this

theorem prefLen_nil (P : Node.leftCond T) (off : Int) :
    prefLen P [] off = 0 := rfl

theorem prefLen_cons (P : Node.leftCond T) (x : T) (xs : List T) (off : Int) :
    prefLen P (x :: xs) off =
      if P x off then prefLen P xs (off + 1) + 1 else 0 := rfl

theorem prefLen_append_allTrue {P : Node.leftCond T} {a : List T}
    (b : List T) {off : Int} (h : AllTrue P a off) :
    prefLen P (a ++ b) off = a.length + prefLen P b (off + a.length) := by
  induction a generalizing off with
  | nil => simp [prefLen]
  | cons x xs ih =>
    rw [List.cons_append, prefLen_cons, if_pos h.head, ih h.shift]
    simp only [List.length_cons]
    have : off + 1 + (xs.length : Int) = off + ((xs.length : Int) + 1) := by ring
    rw [this]
    have : ((xs.length + 1 : Nat) : Int) = (xs.length : Int) + 1 := by push_cast; ring
    rw [this]
    omega

theorem prefLen_append_false {P : Node.leftCond T} {a : List T} {v : T}
    (b : List T) {off : Int} (h : P v (off + a.length) = false) :
    prefLen P (a ++ v :: b) off = prefLen P a off := by
  induction a generalizing off with
  | nil =>
    simp only [List.length_nil, Nat.cast_zero, Int.add_zero] at h
    rw [List.nil_append, prefLen_cons, if_neg (by simp [h]), prefLen_nil]
  | cons x xs ih =>
    rw [List.cons_append, prefLen_cons, prefLen_cons]
    by_cases hx : P x off
    · rw [if_pos hx, if_pos hx, ih]
      rw [← h]
      congr 1
      simp only [List.length_cons]
      push_cast
      ring
    · rw [if_neg hx, if_neg hx]

theorem prefLen_le_length (P : Node.leftCond T) (l : List T) (off : Int) :
    prefLen P l off ≤ l.length := by
  induction l generalizing off with
  | nil => simp [prefLen]
  | cons x xs ih =>
    rw [prefLen_cons]
    simp only [List.length_cons]
    by_cases hx : P x off
    · rw [if_pos hx]
      exact Nat.succ_le_succ (ih _)
    · rw [if_neg hx]
      omega

end PrefLen

section SplitLemmas

variable {T : Type u}

/-- Core correctness of `split`: under correct cached sizes and a
monotone predicate, the two results carry the prefix and the suffix of
the in-order traversal cut at the predicate's threshold. -/
theorem split_inorder (P : Node.leftCond T) :
    ∀ (t : Node T) (off : Int), t.sizeOK → Mono P t.inorder off →
      (t.split P off).1.inorder = t.inorder.take (prefLen P t.inorder off) ∧
      (t.split P off).2.inorder = t.inorder.drop (prefLen P t.inorder off) := by
  intro t
  induction t with
  | nil => intro off _ _; simp [Node.split, Node.inorder, prefLen]
  | node i v p l r par sz ihl ihr =>
    intro off hs hm
    obtain ⟨hsl, hsr, -⟩ := hs
    have hls : l.safeSize = (l.inorder.length : Int) := Node.sizeOK_safeSize hsl
    simp only [Node.inorder] at hm ⊢
    by_cases hc : P v (off + l.safeSize) = true
    · have hcl : P v (off + (l.inorder.length : Int)) = true := by rwa [hls] at hc
      have hAll : AllTrue P l.inorder off := hm.allTrue_left hcl
      have hmr : Mono P r.inorder (off + l.safeSize + 1) := by
        have hm2 := hm
        rw [List.append_cons] at hm2
        have h2 := hm2.append_right
        rw [hls]
        have hlen : ((l.inorder ++ [v]).length : Int) = (l.inorder.length : Int) + 1 := by
          simp
        rw [hlen] at h2
        have : off + ((l.inorder.length : Int) + 1) = off + (l.inorder.length : Int) + 1 := by
          ring
        rwa [this] at h2
      have hKfull : prefLen P (l.inorder ++ v :: r.inorder) off =
          l.inorder.length + (prefLen P r.inorder (off + l.inorder.length + 1) + 1) := by
        rw [prefLen_append_allTrue _ hAll, prefLen_cons, if_pos hcl]
      obtain ⟨ih1, ih2⟩ := ihr (off + l.safeSize + 1) hsr hmr
      rw [Node.split]
      simp only [if_pos hc]
      constructor
      · simp only [Node.inorder_recalcSize, Node.inorder, Node.inorder_safeSetParent]
        rw [ih1, hKfull, List.take_append, List.take_succ_cons, hls]
      · simp only [Node.inorder_safeSetParent]
        rw [ih2, hKfull, List.drop_append, List.drop_succ_cons, hls]
    · have hcf : P v (off + l.safeSize) = false := by
        cases hb : P v (off + l.safeSize) with
        | false => rfl
        | true => exact absurd hb hc
      have hcl : P v (off + (l.inorder.length : Int)) = false := by rwa [hls] at hcf
      have hml : Mono P l.inorder off := hm.append_left
      have hKfull : prefLen P (l.inorder ++ v :: r.inorder) off =
          prefLen P l.inorder off := prefLen_append_false _ hcl
      have hKle : prefLen P l.inorder off ≤ l.inorder.length :=
        prefLen_le_length _ _ _
      obtain ⟨ih1, ih2⟩ := ihl off hsl hml
      rw [Node.split]
      simp only [if_neg hc]
      constructor
      · simp only [Node.inorder_safeSetParent]
        rw [ih1, hKfull, List.take_append_of_le_length hKle]
      · simp only [Node.inorder_recalcSize, Node.inorder, Node.inorder_safeSetParent]
        rw [ih2, hKfull, List.drop_append_of_le_length hKle]

theorem prioLe_mono {t : Node T} {p q : Int} (h : t.prioLe p) (hpq : p ≤ q) :
    t.prioLe q := by
  cases t with
  | nil => trivial
  | node i v pr l r par sz => exact le_trans h hpq

theorem pf_safeSetParent_none (t : Node T) :
    (t.safeSetParent none).pf = none := by
  cases t <;> simp [Node.safeSetParent, Node.pf]

theorem sizeOK_split (P : Node.leftCond T) :
    ∀ (t : Node T) (off : Int), t.sizeOK →
      (t.split P off).1.sizeOK ∧ (t.split P off).2.sizeOK := by
  intro t
  induction t with
  | nil => intro off _; simp [Node.split, Node.sizeOK]
  | node i v p l r par sz ihl ihr =>
    intro off hs
    obtain ⟨hsl, hsr, -⟩ := hs
    rw [Node.split]
    by_cases hc : P v (off + l.safeSize) = true
    · simp only [if_pos hc]
      obtain ⟨h1, h2⟩ := ihr (off + l.safeSize + 1) hsr
      refine ⟨?_, Node.sizeOK_safeSetParent h2 _⟩
      simp only [Node.recalcSize]
      refine ⟨hsl, Node.sizeOK_safeSetParent h1 _, ?_⟩
      have e1 := Node.sizeOK_safeSize hsl
      have e2 := Node.sizeOK_safeSize (Node.sizeOK_safeSetParent h1 (some i))
      omega
    · simp only [if_neg hc]
      obtain ⟨h1, h2⟩ := ihl off hsl
      refine ⟨Node.sizeOK_safeSetParent h1 _, ?_⟩
      simp only [Node.recalcSize]
      refine ⟨Node.sizeOK_safeSetParent h2 _, hsr, ?_⟩
      have e1 := Node.sizeOK_safeSize hsr
      have e2 := Node.sizeOK_safeSize (Node.sizeOK_safeSetParent h2 (some i))
      omega

theorem prioLe_split (P : Node.leftCond T) :
    ∀ (t : Node T) (off : Int) (q : Int), t.heapOK → t.prioLe q →
      (t.split P off).1.prioLe q ∧ (t.split P off).2.prioLe q := by
  intro t
  induction t with
  | nil => intro off q _ _; simp [Node.split, Node.prioLe]
  | node i v p l r par sz ihl ihr =>
    intro off q hh hq
    obtain ⟨hpl, hpr, hhl, hhr⟩ := hh
    have hpq : p ≤ q := hq
    rw [Node.split]
    by_cases hc : P v (off + l.safeSize) = true
    · simp only [if_pos hc]
      obtain ⟨h1, h2⟩ := ihr (off + l.safeSize + 1) q hhr (prioLe_mono hpr hpq)
      exact ⟨by simpa [Node.recalcSize, Node.prioLe] using hpq,
        Node.prioLe_safeSetParent h2 _⟩
    · simp only [if_neg hc]
      obtain ⟨h1, h2⟩ := ihl off q hhl (prioLe_mono hpl hpq)
      exact ⟨Node.prioLe_safeSetParent h1 _,
        by simpa [Node.recalcSize, Node.prioLe] using hpq⟩

theorem heapOK_split (P : Node.leftCond T) :
    ∀ (t : Node T) (off : Int), t.heapOK →
      (t.split P off).1.heapOK ∧ (t.split P off).2.heapOK := by
  intro t
  induction t with
  | nil => intro off _; simp [Node.split, Node.heapOK]
  | node i v p l r par sz ihl ihr =>
    intro off hh
    obtain ⟨hpl, hpr, hhl, hhr⟩ := hh
    rw [Node.split]
    by_cases hc : P v (off + l.safeSize) = true
    · simp only [if_pos hc]
      obtain ⟨h1, h2⟩ := ihr (off + l.safeSize + 1) hhr
      refine ⟨?_, Node.heapOK_safeSetParent h2 _⟩
      simp only [Node.recalcSize, Node.heapOK]
      refine ⟨hpl, ?_, hhl, Node.heapOK_safeSetParent h1 _⟩
      exact Node.prioLe_safeSetParent
        ((prioLe_split P r (off + l.safeSize + 1) p hhr hpr).1) _
    · simp only [if_neg hc]
      obtain ⟨h1, h2⟩ := ihl off hhl
      refine ⟨Node.heapOK_safeSetParent h1 _, ?_⟩
      simp only [Node.recalcSize, Node.heapOK]
      refine ⟨?_, hpr, Node.heapOK_safeSetParent h2 _, hhr⟩
      exact Node.prioLe_safeSetParent ((prioLe_split P l off p hhl hpl).2) _

theorem parentOK_split (P : Node.leftCond T) :
    ∀ (t : Node T) (off : Int), t.parentOK →
      (t.split P off).1.parentOK ∧ (t.split P off).2.parentOK := by
  intro t
  induction t with
  | nil => intro off _; simp [Node.split, Node.parentOK]
  | node i v p l r par sz ihl ihr =>
    intro off hp
    obtain ⟨hpl, hpr, hcl, hcr⟩ := hp
    rw [Node.split]
    by_cases hc : P v (off + l.safeSize) = true
    · simp only [if_pos hc]
      obtain ⟨h1, h2⟩ := ihr (off + l.safeSize + 1) hpr
      refine ⟨?_, Node.parentOK_safeSetParent h2 _⟩
      simp only [Node.recalcSize, Node.parentOK]
      refine ⟨hpl, Node.parentOK_safeSetParent h1 _, hcl, ?_⟩
      intro hne
      exact Node.pf_safeSetParent_of_ne_nil (by simpa using hne) _
    · simp only [if_neg hc]
      obtain ⟨h1, h2⟩ := ihl off hpl
      refine ⟨Node.parentOK_safeSetParent h1 _, ?_⟩
      simp only [Node.recalcSize, Node.parentOK]
      refine ⟨Node.parentOK_safeSetParent h2 _, hpr, ?_, hcr⟩
      intro hne
      exact Node.pf_safeSetParent_of_ne_nil (by simpa using hne) _

theorem pf_split_none (P : Node.leftCond T) (t : Node T) (off : Int)
    (h : t.pf = none) :
    (t.split P off).1.pf = none ∧ (t.split P off).2.pf = none := by
  cases t with
  | nil => simp [Node.split, Node.pf]
  | node i v p l r par sz =>
    rw [Node.split]
    by_cases hc : P v (off + l.safeSize) = true
    · simp only [if_pos hc]
      exact ⟨by simpa [Node.pf_recalcSize, Node.pf] using h, pf_safeSetParent_none _⟩
    · simp only [if_neg hc]
      exact ⟨pf_safeSetParent_none _, by simpa [Node.pf_recalcSize, Node.pf] using h⟩

end SplitLemmas

/-! ## Instantiating the split calculus at the three container
predicates (`condLess`, `condLeq`, `condCutN`) -/

section CondInstances

variable {T : Type u}

theorem prefLen_const (Q : T → Bool) (l : List T) (off : Int) :
    prefLen (fun x _ => Q x) l off = (l.takeWhile Q).length := by
  induction l generalizing off with
  | nil => simp [prefLen, List.takeWhile]
  | cons x xs ih =>
    rw [prefLen_cons]
    by_cases hx : Q x
    · rw [if_pos hx, List.takeWhile_cons_of_pos hx]
      simp [ih]
    · rw [if_neg (by simpa using hx), List.takeWhile_cons_of_neg (by simpa using hx)]
      simp

theorem take_length_takeWhile (Q : T → Bool) (l : List T) :
    l.take (l.takeWhile Q).length = l.takeWhile Q := by
  induction l with
  | nil => simp
  | cons x xs ih =>
    by_cases hx : Q x
    · rw [List.takeWhile_cons_of_pos hx]
      simpa using ih
    · rw [List.takeWhile_cons_of_neg (by simpa using hx)]
      simp

theorem drop_length_takeWhile (Q : T → Bool) (l : List T) :
    l.drop (l.takeWhile Q).length = l.dropWhile Q := by
  induction l with
  | nil => simp
  | cons x xs ih =>
    by_cases hx : Q x
    · rw [List.takeWhile_cons_of_pos hx, List.dropWhile_cons_of_pos hx]
      simpa using ih
    · rw [List.takeWhile_cons_of_neg (by simpa using hx),
        List.dropWhile_cons_of_neg (by simpa using hx)]
      simp

/-- Any value-threshold predicate that is downward closed along the
comparator is monotone over a sorted in-order sequence. -/
theorem mono_const_of_sorted {lt : T → T → Bool} {l : List T}
    (hs : Sorted lt l) (Q : T → Bool)
    (hdc : ∀ x y : T, lt y x = false → Q y = true → Q x = true) (off : Int) :
    Mono (fun x _ => Q x) l off := by
  intro i j x y hij hx hy hQy
  rcases Nat.lt_or_ge i j with hlt | hge
  · obtain ⟨hj, hj2⟩ := List.getElem?_eq_some.1 hy
    obtain ⟨hi, hi2⟩ := List.getElem?_eq_some.1 hx
    have := List.pairwise_iff_getElem.1 hs i j hi hj hlt
    rw [hi2, hj2] at this
    exact hdc x y this hQy
  · have : i = j := by omega
    subst this
    rw [hx] at hy
    cases hy
    exact hQy

theorem mono_condLess {lt : T → T → Bool} (hst : IsSTO lt) {l : List T}
    (hs : Sorted lt l) (v : T) (off : Int) :
    Mono (fun x (_ : Int) => lt x v) l off := by
  refine mono_const_of_sorted hs _ ?_ off
  intro x y hyx hyv
  rcases hst.total x v with h | h | h
  · exact h
  · subst h
    rw [hyv] at hyx
    simp at hyx
  · have := hst.trans y v x hyv h
    rw [this] at hyx
    simp at hyx

theorem mono_condLeq {lt : T → T → Bool} (hst : IsSTO lt) {l : List T}
    (hs : Sorted lt l) (v : T) (off : Int) :
    Mono (fun x (_ : Int) => !(lt v x)) l off := by
  refine mono_const_of_sorted hs _ ?_ off
  intro x y hyx hvy
  have hvy' : lt v y = false := by simpa using hvy
  have : lt v x = false := hst.not_lt_trans hvy' hyx
  simp [this]

theorem mono_condCut {l : List T} (n : Int) (off : Int) :
    Mono (fun (_ : T) k => decide (k < n)) l off := by
  intro i j x y hij hx hy hPy
  simp only [decide_eq_true_eq] at hPy ⊢
  have : (i : Int) ≤ (j : Int) := by exact_mod_cast hij
  omega

theorem prefLen_cut (n : Int) (l : List T) (off : Int) :
    prefLen (fun (_ : T) k => decide (k < n)) l off =
      (n - off).toNat ⊓ l.length := by
  induction l generalizing off with
  | nil => simp [prefLen]
  | cons x xs ih =>
    rw [prefLen_cons]
    by_cases hx : off < n
    · rw [if_pos (by simpa using hx), ih]
      simp only [List.length_cons]
      omega
    · rw [if_neg (by simpa using hx)]
      simp only [List.length_cons]
      omega

theorem take_inf_length (l : List T) (n : Nat) :
    l.take (n ⊓ l.length) = l.take n := by
  rcases le_total n l.length with h | h
  · rw [inf_of_le_left h]
  · rw [inf_of_le_right h, List.take_length, List.take_of_length_le h]

theorem drop_inf_length (l : List T) (n : Nat) :
    l.drop (n ⊓ l.length) = l.drop n := by
  rcases le_total n l.length with h | h
  · rw [inf_of_le_left h]
  · rw [inf_of_le_right h, List.drop_length, List.drop_eq_nil_of_le h]

/-- Membership in the part a `condLess` split sends right, over a sorted
list: nothing there is below the threshold. -/
theorem dropWhile_less_spec {lt : T → T → Bool} (hst : IsSTO lt)
    {l : List T} (hs : Sorted lt l) (v : T) {y : T}
    (hy : y ∈ l.dropWhile (fun x => lt x v)) : lt y v = false := by
  induction l with
  | nil => simp [List.dropWhile] at hy
  | cons x xs ih =>
    obtain ⟨hhead, htail⟩ := List.pairwise_cons.1 hs
    rw [List.dropWhile_cons] at hy
    by_cases hx : lt x v
    · rw [if_pos hx] at hy
      exact ih htail hy
    · rw [if_neg hx] at hy
      have hxv : lt x v = false := by
        cases h : lt x v with
        | false => rfl
        | true => exact absurd h hx
      rcases List.mem_cons.1 hy with rfl | hmem
      · exact hxv
      · exact hst.not_lt_trans (hhead y hmem) hxv

/-- Membership in the part a `condLeq` split sends right, over a sorted
list: everything there is strictly above the threshold. -/
theorem dropWhile_leq_spec {lt : T → T → Bool} (hst : IsSTO lt)
    {l : List T} (hs : Sorted lt l) (v : T) {y : T}
    (hy : y ∈ l.dropWhile (fun x => !(lt v x))) : lt v y = true := by
  induction l with
  | nil => simp [List.dropWhile] at hy
  | cons x xs ih =>
    obtain ⟨hhead, htail⟩ := List.pairwise_cons.1 hs
    rw [List.dropWhile_cons] at hy
    by_cases hx : lt v x
    · rw [if_neg (show ¬((!(lt v x)) = true) from by simp [hx])] at hy
      rcases List.mem_cons.1 hy with rfl | hmem
      · exact hx
      · rcases hst.total v y with h | h | h
        · exact h
        · have hcontra := hhead y hmem
          rw [← h] at hcontra
          rw [hcontra] at hx
          simp at hx
        · have := hst.trans y v x h hx
          rw [hhead y hmem] at this
          simp at this
    · rw [if_pos (show (!(lt v x)) = true from by simp [hx])] at hy
      exact ih htail hy

end CondInstances

/-! ## Invariant preservation packaged for the container operations -/

section InvLemmas

variable {T : Type u} {lt : T → T → Bool}

theorem Sorted.of_sublist {a b : List T} (h : a.Sublist b) (hs : Sorted lt b) :
    Sorted lt a :=
  List.Pairwise.sublist h hs

theorem Sorted.append {a b : List T} (ha : Sorted lt a) (hb : Sorted lt b)
    (hcross : ∀ x ∈ a, ∀ y ∈ b, lt y x = false) : Sorted lt (a ++ b) :=
  List.pairwise_append.2 ⟨ha, hb, hcross⟩

theorem InvRoot_nil : InvRoot lt (Node.nil : Node T) := by
  refine ⟨?_, trivial, trivial, trivial, rfl⟩
  simp [Node.inorder, Sorted]

theorem InvRoot_newNode (v : T) (prio : Int) (id : Nat) :
    InvRoot lt (Node.newNode v prio id) := by
  refine ⟨?_, ?_, ?_, ?_, rfl⟩
  · simp [Node.newNode, Node.inorder, Sorted]
  · exact ⟨trivial, trivial, trivial, trivial⟩
  · exact ⟨trivial, trivial, by simp [Node.inorder]⟩
  · exact ⟨trivial, trivial, by simp, by simp⟩

theorem inorder_newNode (v : T) (prio : Int) (id : Nat) :
    (Node.newNode v prio id).inorder = [v] := by
  simp [Node.newNode, Node.inorder]

theorem InvRoot_merge {l r : Node T} (hl : InvRoot lt l) (hr : InvRoot lt r)
    (hcross : ∀ x ∈ l.inorder, ∀ y ∈ r.inorder, lt y x = false) :
    InvRoot lt (merge l r) := by
  obtain ⟨hsl, hhl, hzl, hpl, hfl⟩ := hl
  obtain ⟨hsr, hhr, hzr, hpr, hfr⟩ := hr
  refine ⟨?_, heapOK_merge hhl hhr, sizeOK_merge hzl hzr,
    parentOK_merge hpl hpr, pf_merge_none hfl hfr⟩
  rw [inorder_merge]
  exact hsl.append hsr hcross

theorem InvRoot_split {t : Node T} (P : Node.leftCond T) (hI : InvRoot lt t)
    (hm : Mono P t.inorder 0) :
    InvRoot lt (t.split P 0).1 ∧ InvRoot lt (t.split P 0).2 := by
  obtain ⟨hso, hh, hz, hp, hf⟩ := hI
  obtain ⟨e1, e2⟩ := split_inorder P t 0 hz hm
  obtain ⟨z1, z2⟩ := sizeOK_split P t 0 hz
  obtain ⟨h1, h2⟩ := heapOK_split P t 0 hh
  obtain ⟨p1, p2⟩ := parentOK_split P t 0 hp
  obtain ⟨f1, f2⟩ := pf_split_none P t 0 hf
  refine ⟨⟨?_, h1, z1, p1, f1⟩, ⟨?_, h2, z2, p2, f2⟩⟩
  · rw [e1]; exact hso.of_sublist (List.take_sublist _ _)
  · rw [e2]; exact hso.of_sublist (List.drop_sublist _ _)

/-- Split at `condLess v`: the parts are the `takeWhile`/`dropWhile` cut
of the sorted traversal at "value below `v`", and both are again valid
detached treaps. -/
theorem split_condLess_spec (hst : IsSTO lt) {t : Node T}
    (hI : InvRoot lt t) (v : T) :
    (t.split (fun x (_ : Int) => lt x v) 0).1.inorder =
        t.inorder.takeWhile (fun x => lt x v) ∧
      (t.split (fun x (_ : Int) => lt x v) 0).2.inorder =
        t.inorder.dropWhile (fun x => lt x v) ∧
      InvRoot lt (t.split (fun x (_ : Int) => lt x v) 0).1 ∧
      InvRoot lt (t.split (fun x (_ : Int) => lt x v) 0).2 := by
  have hm : Mono (fun x (_ : Int) => lt x v) t.inorder 0 :=
    mono_condLess hst hI.1 v 0
  obtain ⟨e1, e2⟩ := split_inorder _ t 0 hI.2.2.1 hm
  obtain ⟨i1, i2⟩ := InvRoot_split _ hI hm
  rw [prefLen_const] at e1 e2
  rw [take_length_takeWhile] at e1
  rw [drop_length_takeWhile] at e2
  exact ⟨e1, e2, i1, i2⟩

/-- Split at `condLeq v`: the `takeWhile`/`dropWhile` cut at "value not
above `v`". -/
theorem split_condLeq_spec (hst : IsSTO lt) {t : Node T}
    (hI : InvRoot lt t) (v : T) :
    (t.split (fun x (_ : Int) => !(lt v x)) 0).1.inorder =
        t.inorder.takeWhile (fun x => !(lt v x)) ∧
      (t.split (fun x (_ : Int) => !(lt v x)) 0).2.inorder =
        t.inorder.dropWhile (fun x => !(lt v x)) ∧
      InvRoot lt (t.split (fun x (_ : Int) => !(lt v x)) 0).1 ∧
      InvRoot lt (t.split (fun x (_ : Int) => !(lt v x)) 0).2 := by
  have hm : Mono (fun x (_ : Int) => !(lt v x)) t.inorder 0 :=
    mono_condLeq hst hI.1 v 0
  obtain ⟨e1, e2⟩ := split_inorder _ t 0 hI.2.2.1 hm
  obtain ⟨i1, i2⟩ := InvRoot_split _ hI hm
  rw [prefLen_const] at e1 e2
  rw [take_length_takeWhile] at e1
  rw [drop_length_takeWhile] at e2
  exact ⟨e1, e2, i1, i2⟩

/-- Split at `condCutN n`: positional cut at `n` (clamped into range by
`take`/`drop` semantics). -/
theorem split_condCut_spec {t : Node T} (hI : InvRoot lt t) (n : Int) :
    (t.split (fun (_ : T) k => decide (k < n)) 0).1.inorder =
        t.inorder.take n.toNat ∧
      (t.split (fun (_ : T) k => decide (k < n)) 0).2.inorder =
        t.inorder.drop n.toNat ∧
      InvRoot lt (t.split (fun (_ : T) k => decide (k < n)) 0).1 ∧
      InvRoot lt (t.split (fun (_ : T) k => decide (k < n)) 0).2 := by
  have hm : Mono (fun (_ : T) k => decide (k < n)) t.inorder 0 :=
    mono_condCut n 0
  obtain ⟨e1, e2⟩ := split_inorder _ t 0 hI.2.2.1 hm
  obtain ⟨i1, i2⟩ := InvRoot_split _ hI hm
  rw [prefLen_cut] at e1 e2
  simp only [Int.sub_zero] at e1 e2
  rw [take_inf_length] at e1
  rw [drop_inf_length] at e2
  exact ⟨e1, e2, i1, i2⟩

end InvLemmas

/-! ## Operation-level specifications -/

section OpSpecs

variable {T : Type u}

theorem lt_false_of_lt_of_not_lt {lt : T → T → Bool} (hst : IsSTO lt)
    {x y v : T} (hxv : lt x v = true) (hyv : lt y v = false) :
    lt y x = false := by
  cases hb : lt y x with
  | false => rfl
  | true =>
    have := hst.trans y x v hb hxv
    rw [this] at hyv
    simp at hyv

theorem lt_false_of_not_lt_of_lt {lt : T → T → Bool} (hst : IsSTO lt)
    {x y v : T} (hvx : lt v x = false) (hvy : lt v y = true) :
    lt y x = false := by
  cases hb : lt y x with
  | false => rfl
  | true =>
    have := hst.trans v y x hvy hb
    rw [this] at hvx
    simp at hvx

theorem mem_takeWhile_pred (Q : T → Bool) {l : List T} {x : T}
    (h : x ∈ l.takeWhile Q) : Q x = true :=
  List.mem_takeWhile_imp h

theorem InsertLeft_spec {t : Treap T} (hst : IsSTO t.lessFn) (hI : Inv t)
    (v : T) (prio : Int) (id : Nat) :
    (t.InsertLeft v prio id).2.root.inorder =
        t.root.inorder.takeWhile (fun x => t.lessFn x v) ++
          v :: t.root.inorder.dropWhile (fun x => t.lessFn x v) ∧
      Inv (t.InsertLeft v prio id).2 ∧
      (t.InsertLeft v prio id).2.lessFn = t.lessFn ∧
      (t.InsertLeft v prio id).1 =
        ((t.root.inorder.takeWhile (fun x => t.lessFn x v)).length : Int) := by
  obtain ⟨e1, e2, i1, i2⟩ := split_condLess_spec hst hI v
  have hcl : (fun x (_ : Int) => t.lessFn x v) = t.condLess v := rfl
  rw [hcl] at e1 e2 i1 i2
  have hmid : InvRoot t.lessFn
      (merge (Node.newNode v prio id)
        (t.root.split (t.condLess v) 0).2) := by
    refine InvRoot_merge (InvRoot_newNode v prio id) i2 ?_
    intro x hx y hy
    rw [inorder_newNode] at hx
    rcases List.mem_singleton.1 hx with rfl
    rw [e2] at hy
    exact dropWhile_less_spec hst hI.1 x hy
  have hout : InvRoot t.lessFn
      (merge (t.root.split (t.condLess v) 0).1
        (merge (Node.newNode v prio id)
          (t.root.split (t.condLess v) 0).2)) := by
    refine InvRoot_merge i1 hmid ?_
    intro x hx y hy
    rw [e1] at hx
    have hxv : t.lessFn x v = true :=
      mem_takeWhile_pred (fun z => t.lessFn z v) hx
    rw [inorder_merge, inorder_newNode] at hy
    rcases List.mem_append.1 hy with hy | hy
    · rcases List.mem_singleton.1 hy with rfl
      exact hst.asymm hxv
    · rw [e2] at hy
      exact lt_false_of_lt_of_not_lt hst hxv (dropWhile_less_spec hst hI.1 v hy)
  refine ⟨?_, hout, rfl, ?_⟩
  · show (merge (t.root.split (t.condLess v) 0).1
        (merge (Node.newNode v prio id)
          (t.root.split (t.condLess v) 0).2)).inorder = _
    rw [inorder_merge, inorder_merge, inorder_newNode, e1, e2]
    simp
  · show (t.root.split (t.condLess v) 0).1.safeSize = _
    rw [Node.sizeOK_safeSize i1.2.2.1, e1]

theorem InsertRight_spec {t : Treap T} (hst : IsSTO t.lessFn) (hI : Inv t)
    (v : T) (prio : Int) (id : Nat) :
    (t.InsertRight v prio id).2.root.inorder =
        t.root.inorder.takeWhile (fun x => !(t.lessFn v x)) ++
          v :: t.root.inorder.dropWhile (fun x => !(t.lessFn v x)) ∧
      Inv (t.InsertRight v prio id).2 ∧
      (t.InsertRight v prio id).2.lessFn = t.lessFn ∧
      (t.InsertRight v prio id).1 =
        ((t.root.inorder.takeWhile (fun x => !(t.lessFn v x))).length : Int) := by
  obtain ⟨e1, e2, i1, i2⟩ := split_condLeq_spec hst hI v
  have hcq : (fun x (_ : Int) => !(t.lessFn v x)) = t.condLeq v := rfl
  rw [hcq] at e1 e2 i1 i2
  have hmid : InvRoot t.lessFn
      (merge (t.root.split (t.condLeq v) 0).1 (Node.newNode v prio id)) := by
    refine InvRoot_merge i1 (InvRoot_newNode v prio id) ?_
    intro x hx y hy
    rw [inorder_newNode] at hy
    rcases List.mem_singleton.1 hy with rfl
    rw [e1] at hx
    have := mem_takeWhile_pred (fun z => !(t.lessFn y z)) hx
    simpa using this
  have hout : InvRoot t.lessFn
      (merge (merge (t.root.split (t.condLeq v) 0).1 (Node.newNode v prio id))
        (t.root.split (t.condLeq v) 0).2) := by
    refine InvRoot_merge hmid i2 ?_
    intro x hx y hy
    rw [e2] at hy
    have hvy : t.lessFn v y = true := dropWhile_leq_spec hst hI.1 v hy
    rw [inorder_merge, inorder_newNode] at hx
    rcases List.mem_append.1 hx with hx | hx
    · rw [e1] at hx
      have hvx : t.lessFn v x = false := by
        simpa using mem_takeWhile_pred (fun z => !(t.lessFn v z)) hx
      exact lt_false_of_not_lt_of_lt hst hvx hvy
    · rcases List.mem_singleton.1 hx with rfl
      exact hst.asymm hvy
  refine ⟨?_, hout, rfl, ?_⟩
  · show (merge (merge (t.root.split (t.condLeq v) 0).1 (Node.newNode v prio id))
        (t.root.split (t.condLeq v) 0).2).inorder = _
    rw [inorder_merge, inorder_merge, inorder_newNode, e1, e2]
    simp
  · show (t.root.split (t.condLeq v) 0).1.safeSize = _
    rw [Node.sizeOK_safeSize i1.2.2.1, e1]

theorem lt_false_of_lt_of_gt {lt : T → T → Bool} (hst : IsSTO lt)
    {x y v : T} (hxv : lt x v = true) (hvy : lt v y = true) :
    lt y x = false := by
  cases hb : lt y x with
  | false => rfl
  | true =>
    have := hst.trans y x v hb hxv
    rw [hst.asymm hvy] at this
    simp at this

/-- The two value splits performed by the erase family: prefix below `v`,
the equal run at `v`, and the suffix above `v`. -/
theorem doubleSplit_spec {t : Treap T} (hst : IsSTO t.lessFn) (hI : Inv t)
    (v : T) :
    (t.root.split (t.condLess v) 0).1.inorder =
        t.root.inorder.takeWhile (fun x => t.lessFn x v) ∧
      ((t.root.split (t.condLess v) 0).2.split (t.condLeq v) 0).1.inorder =
        (t.root.inorder.dropWhile (fun x => t.lessFn x v)).takeWhile
          (fun x => !(t.lessFn v x)) ∧
      ((t.root.split (t.condLess v) 0).2.split (t.condLeq v) 0).2.inorder =
        (t.root.inorder.dropWhile (fun x => t.lessFn x v)).dropWhile
          (fun x => !(t.lessFn v x)) ∧
      InvRoot t.lessFn (t.root.split (t.condLess v) 0).1 ∧
      InvRoot t.lessFn
        ((t.root.split (t.condLess v) 0).2.split (t.condLeq v) 0).1 ∧
      InvRoot t.lessFn
        ((t.root.split (t.condLess v) 0).2.split (t.condLeq v) 0).2 := by
  obtain ⟨e1, e2, i1, i2⟩ := split_condLess_spec hst hI v
  have hcl : (fun x (_ : Int) => t.lessFn x v) = t.condLess v := rfl
  rw [hcl] at e1 e2 i1 i2
  obtain ⟨f1, f2, j1, j2⟩ := split_condLeq_spec hst i2 v
  have hcq : (fun x (_ : Int) => !(t.lessFn v x)) = t.condLeq v := rfl
  rw [hcq] at f1 f2 j1 j2
  rw [e2] at f1 f2
  exact ⟨e1, f1, f2, i1, j1, j2⟩

/-- Membership facts for the three parts of the double split. -/
theorem doubleSplit_mem {t : Treap T} (hst : IsSTO t.lessFn) (hI : Inv t)
    (v : T) :
    (∀ x ∈ (t.root.split (t.condLess v) 0).1.inorder,
        t.lessFn x v = true) ∧
      (∀ x ∈ ((t.root.split (t.condLess v) 0).2.split (t.condLeq v) 0).1.inorder,
        t.lessFn x v = false ∧ t.lessFn v x = false) ∧
      (∀ x ∈ ((t.root.split (t.condLess v) 0).2.split (t.condLeq v) 0).2.inorder,
        t.lessFn v x = true) := by
  obtain ⟨e1, f1, f2, i1, j1, j2⟩ := doubleSplit_spec hst hI v
  refine ⟨?_, ?_, ?_⟩
  · intro x hx
    rw [e1] at hx
    exact mem_takeWhile_pred (fun z => t.lessFn z v) hx
  · intro x hx
    rw [f1] at hx
    have hd : Sorted t.lessFn
        (t.root.inorder.dropWhile (fun z => t.lessFn z v)) :=
      Sorted.of_sublist (List.dropWhile_sublist _) hI.1
    constructor
    · exact dropWhile_less_spec hst hI.1 v
        ((List.takeWhile_sublist _).mem hx)
    · simpa using mem_takeWhile_pred (fun z => !(t.lessFn v z)) hx
  · intro x hx
    rw [f2] at hx
    have hd : Sorted t.lessFn
        (t.root.inorder.dropWhile (fun z => t.lessFn z v)) :=
      Sorted.of_sublist (List.dropWhile_sublist _) hI.1
    exact dropWhile_leq_spec hst hd v hx

theorem EraseAll_spec {t : Treap T} (hst : IsSTO t.lessFn) (hI : Inv t)
    (v : T) :
    Inv (t.EraseAll v).2 ∧ (t.EraseAll v).2.lessFn = t.lessFn := by
  obtain ⟨e1, f1, f2, i1, j1, j2⟩ := doubleSplit_spec hst hI v
  obtain ⟨m1, m2, m3⟩ := doubleSplit_mem hst hI v
  refine ⟨?_, rfl⟩
  show InvRoot t.lessFn (merge _ _)
  refine InvRoot_merge i1 j2 ?_
  intro x hx y hy
  exact lt_false_of_lt_of_gt hst (m1 x hx) (m3 y hy)

/-- Invariant preservation for `EraseLeftmost`, any count. -/
theorem EraseLeftmost_Inv {t : Treap T} (hst : IsSTO t.lessFn) (hI : Inv t)
    (v : T) (n : Int) :
    Inv (t.EraseLeftmost v n).2 ∧ (t.EraseLeftmost v n).2.lessFn = t.lessFn := by
  obtain ⟨e1, f1, f2, i1, j1, j2⟩ := doubleSplit_spec hst hI v
  obtain ⟨m1, m2, m3⟩ := doubleSplit_mem hst hI v
  refine ⟨?_, rfl⟩
  show InvRoot t.lessFn (t.EraseLeftmost v n).2.root
  have hroot : (t.EraseLeftmost v n).2.root =
      merge (t.root.split (t.condLess v) 0).1
        (merge
          (((t.root.split (t.condLess v) 0).2.split (t.condLeq v) 0).1.split
            (t.condCutN
              (if n < 0 then
                ((t.root.split (t.condLess v) 0).2.split (t.condLeq v) 0).1.safeSize
              else n)) 0).2
          ((t.root.split (t.condLess v) 0).2.split (t.condLeq v) 0).2) := rfl
  rw [hroot]
  set m : Int := if n < 0 then
      ((t.root.split (t.condLess v) 0).2.split (t.condLeq v) 0).1.safeSize
    else n with hm
  obtain ⟨g1, g2, k1, k2⟩ := split_condCut_spec j1 m
  have hcc : (fun (_ : T) k => decide (k < m)) = t.condCutN m := rfl
  rw [hcc] at g1 g2 k1 k2
  have hmemdrop : ∀ y ∈ (((t.root.split (t.condLess v) 0).2.split
      (t.condLeq v) 0).1.split (t.condCutN m) 0).2.inorder,
      t.lessFn y v = false ∧ t.lessFn v y = false := by
    intro y hy
    rw [g2] at hy
    exact m2 y ((List.drop_sublist _ _).mem hy)
  have hmid : InvRoot t.lessFn
      (merge (((t.root.split (t.condLess v) 0).2.split (t.condLeq v) 0).1.split
          (t.condCutN m) 0).2
        ((t.root.split (t.condLess v) 0).2.split (t.condLeq v) 0).2) := by
    refine InvRoot_merge k2 j2 ?_
    intro x hx y hy
    exact lt_false_of_not_lt_of_lt hst (hmemdrop x hx).2 (m3 y hy)
  refine InvRoot_merge i1 hmid ?_
  intro x hx y hy
  rw [inorder_merge] at hy
  rcases List.mem_append.1 hy with hy | hy
  · exact lt_false_of_lt_of_not_lt hst (m1 x hx) (hmemdrop y hy).1
  · exact lt_false_of_lt_of_gt hst (m1 x hx) (m3 y hy)

/-- Invariant preservation for `EraseRightmost`, any count. -/
theorem EraseRightmost_Inv {t : Treap T} (hst : IsSTO t.lessFn) (hI : Inv t)
    (v : T) (n : Int) :
    Inv (t.EraseRightmost v n).2 ∧
      (t.EraseRightmost v n).2.lessFn = t.lessFn := by
  obtain ⟨e1, f1, f2, i1, j1, j2⟩ := doubleSplit_spec hst hI v
  obtain ⟨m1, m2, m3⟩ := doubleSplit_mem hst hI v
  refine ⟨?_, rfl⟩
  show InvRoot t.lessFn (t.EraseRightmost v n).2.root
  have hroot : (t.EraseRightmost v n).2.root =
      merge (t.root.split (t.condLess v) 0).1
        (merge
          (((t.root.split (t.condLess v) 0).2.split (t.condLeq v) 0).1.split
            (t.condCutN
              (((t.root.split (t.condLess v) 0).2.split (t.condLeq v) 0).1.safeSize -
                (if n < 0 then
                  ((t.root.split (t.condLess v) 0).2.split (t.condLeq v) 0).1.safeSize
                else n))) 0).1
          ((t.root.split (t.condLess v) 0).2.split (t.condLeq v) 0).2) := rfl
  rw [hroot]
  set m : Int :=
    ((t.root.split (t.condLess v) 0).2.split (t.condLeq v) 0).1.safeSize -
      (if n < 0 then
        ((t.root.split (t.condLess v) 0).2.split (t.condLeq v) 0).1.safeSize
      else n) with hm
  obtain ⟨g1, g2, k1, k2⟩ := split_condCut_spec j1 m
  have hcc : (fun (_ : T) k => decide (k < m)) = t.condCutN m := rfl
  rw [hcc] at g1 g2 k1 k2
  have hmemtake : ∀ y ∈ (((t.root.split (t.condLess v) 0).2.split
      (t.condLeq v) 0).1.split (t.condCutN m) 0).1.inorder,
      t.lessFn y v = false ∧ t.lessFn v y = false := by
    intro y hy
    rw [g1] at hy
    exact m2 y ((List.take_sublist _ _).mem hy)
  have hmid : InvRoot t.lessFn
      (merge (((t.root.split (t.condLess v) 0).2.split (t.condLeq v) 0).1.split
          (t.condCutN m) 0).1
        ((t.root.split (t.condLess v) 0).2.split (t.condLeq v) 0).2) := by
    refine InvRoot_merge k1 j2 ?_
    intro x hx y hy
    exact lt_false_of_not_lt_of_lt hst (hmemtake x hx).2 (m3 y hy)
  refine InvRoot_merge i1 hmid ?_
  intro x hx y hy
  rw [inorder_merge] at hy
  rcases List.mem_append.1 hy with hy | hy
  · exact lt_false_of_lt_of_not_lt hst (m1 x hx) (hmemtake y hy).1
  · exact lt_false_of_lt_of_gt hst (m1 x hx) (m3 y hy)

/-- With a negative count, `EraseLeftmost` erases the whole equal run:
it returns the run's full length, every member of that run equals the
requested value, and the remaining traversal is the concatenation of the
strictly-smaller prefix and the strictly-larger suffix. -/
theorem EraseLeftmost_neg_spec {t : Treap T} (hst : IsSTO t.lessFn)
    (hI : Inv t) (v : T) {n : Int} (hn : n < 0) :
    (t.EraseLeftmost v n).1 =
        (((t.root.inorder.dropWhile (fun x => t.lessFn x v)).takeWhile
          (fun x => !(t.lessFn v x))).length : Int) ∧
      (∀ x ∈ (t.root.inorder.dropWhile (fun x => t.lessFn x v)).takeWhile
          (fun x => !(t.lessFn v x)), x = v) ∧
      (t.EraseLeftmost v n).2.root.inorder =
        t.root.inorder.takeWhile (fun x => t.lessFn x v) ++
          (t.root.inorder.dropWhile (fun x => t.lessFn x v)).dropWhile
            (fun x => !(t.lessFn v x)) ∧
      (∀ x ∈ (t.EraseLeftmost v n).2.root.inorder,
        (t.lessFn x v || t.lessFn v x) = true) := by
  obtain ⟨e1, f1, f2, i1, j1, j2⟩ := doubleSplit_spec hst hI v
  obtain ⟨m1, m2, m3⟩ := doubleSplit_mem hst hI v
  have hif : (if n < 0 then
      ((t.root.split (t.condLess v) 0).2.split (t.condLeq v) 0).1.safeSize
    else n) =
      ((t.root.split (t.condLess v) 0).2.split (t.condLeq v) 0).1.safeSize :=
    if_pos hn
  have hsz : ((t.root.split (t.condLess v) 0).2.split (t.condLeq v) 0).1.safeSize =
      (((t.root.split (t.condLess v) 0).2.split (t.condLeq v) 0).1.inorder.length : Int) :=
    Node.sizeOK_safeSize j1.2.2.1
  obtain ⟨g1, g2, k1, k2⟩ := split_condCut_spec j1
    ((t.root.split (t.condLess v) 0).2.split (t.condLeq v) 0).1.safeSize
  have hcc : (fun (_ : T) k => decide
      (k < ((t.root.split (t.condLess v) 0).2.split (t.condLeq v) 0).1.safeSize)) =
      t.condCutN ((t.root.split (t.condLess v) 0).2.split (t.condLeq v) 0).1.safeSize :=
    rfl
  rw [hcc] at g1 g2 k1 k2
  have hmt : ((t.root.split (t.condLess v) 0).2.split (t.condLeq v) 0).1.safeSize.toNat =
      ((t.root.split (t.condLess v) 0).2.split (t.condLeq v) 0).1.inorder.length := by
    omega
  have htake : (((t.root.split (t.condLess v) 0).2.split (t.condLeq v) 0).1.split
      (t.condCutN ((t.root.split (t.condLess v) 0).2.split (t.condLeq v) 0).1.safeSize) 0).1.inorder =
      ((t.root.split (t.condLess v) 0).2.split (t.condLeq v) 0).1.inorder := by
    rw [g1, hmt, List.take_length]
  have hdrop : (((t.root.split (t.condLess v) 0).2.split (t.condLeq v) 0).1.split
      (t.condCutN ((t.root.split (t.condLess v) 0).2.split (t.condLeq v) 0).1.safeSize) 0).2.inorder = [] := by
    rw [g2, hmt, List.drop_length]
  have hcnt : (t.EraseLeftmost v n).1 =
      (((t.root.split (t.condLess v) 0).2.split (t.condLeq v) 0).1.split
        (t.condCutN ((t.root.split (t.condLess v) 0).2.split (t.condLeq v) 0).1.safeSize) 0).1.safeSize := by
    show (((t.root.split (t.condLess v) 0).2.split (t.condLeq v) 0).1.split
      (t.condCutN (if n < 0 then _ else n)) 0).1.safeSize = _
    rw [hif]
  have hpost : (t.EraseLeftmost v n).2.root =
      merge (t.root.split (t.condLess v) 0).1
        (merge
          (((t.root.split (t.condLess v) 0).2.split (t.condLeq v) 0).1.split
            (t.condCutN ((t.root.split (t.condLess v) 0).2.split (t.condLeq v) 0).1.safeSize) 0).2
          ((t.root.split (t.condLess v) 0).2.split (t.condLeq v) 0).2) := by
    show merge _ (merge (((t.root.split (t.condLess v) 0).2.split
      (t.condLeq v) 0).1.split (t.condCutN (if n < 0 then _ else n)) 0).2 _) = _
    rw [hif]
  have hpostord : (t.EraseLeftmost v n).2.root.inorder =
      t.root.inorder.takeWhile (fun x => t.lessFn x v) ++
        (t.root.inorder.dropWhile (fun x => t.lessFn x v)).dropWhile
          (fun x => !(t.lessFn v x)) := by
    rw [hpost, inorder_merge, inorder_merge, hdrop, e1, f2]
    simp
  refine ⟨?_, ?_, hpostord, ?_⟩
  · rw [hcnt, Node.sizeOK_safeSize k1.2.2.1, htake, f1]
  · intro x hx
    rw [← f1] at hx
    obtain ⟨h1, h2⟩ := m2 x hx
    exact (hst.eq_of_not_lt h1 h2)
  · intro x hx
    rw [hpostord] at hx
    rcases List.mem_append.1 hx with hx | hx
    · have := mem_takeWhile_pred (fun z => t.lessFn z v) hx
      simp [this]
    · rw [← f2] at hx
      have := m3 x hx
      simp [this]

/-- With a negative count, `EraseRightmost` likewise erases the whole
equal run. -/
theorem EraseRightmost_neg_spec {t : Treap T} (hst : IsSTO t.lessFn)
    (hI : Inv t) (v : T) {n : Int} (hn : n < 0) :
    (t.EraseRightmost v n).1 =
        (((t.root.inorder.dropWhile (fun x => t.lessFn x v)).takeWhile
          (fun x => !(t.lessFn v x))).length : Int) ∧
      (t.EraseRightmost v n).2.root.inorder =
        t.root.inorder.takeWhile (fun x => t.lessFn x v) ++
          (t.root.inorder.dropWhile (fun x => t.lessFn x v)).dropWhile
            (fun x => !(t.lessFn v x)) := by
  obtain ⟨e1, f1, f2, i1, j1, j2⟩ := doubleSplit_spec hst hI v
  have hif : (if n < 0 then
      ((t.root.split (t.condLess v) 0).2.split (t.condLeq v) 0).1.safeSize
    else n) =
      ((t.root.split (t.condLess v) 0).2.split (t.condLeq v) 0).1.safeSize :=
    if_pos hn
  have hzero : ((t.root.split (t.condLess v) 0).2.split (t.condLeq v) 0).1.safeSize -
      (if n < 0 then
        ((t.root.split (t.condLess v) 0).2.split (t.condLeq v) 0).1.safeSize
      else n) = 0 := by
    rw [hif]; ring
  obtain ⟨g1, g2, k1, k2⟩ := split_condCut_spec j1 (0 : Int)
  have hcc : (fun (_ : T) k => decide (k < (0 : Int))) = t.condCutN 0 := rfl
  rw [hcc] at g1 g2 k1 k2
  have htake : (((t.root.split (t.condLess v) 0).2.split (t.condLeq v) 0).1.split
      (t.condCutN 0) 0).1.inorder = [] := by
    rw [g1]
    simp
  have hdrop : (((t.root.split (t.condLess v) 0).2.split (t.condLeq v) 0).1.split
      (t.condCutN 0) 0).2.inorder =
      ((t.root.split (t.condLess v) 0).2.split (t.condLeq v) 0).1.inorder := by
    rw [g2]
    simp
  have hcnt : (t.EraseRightmost v n).1 =
      (((t.root.split (t.condLess v) 0).2.split (t.condLeq v) 0).1.split
        (t.condCutN 0) 0).2.safeSize := by
    show (((t.root.split (t.condLess v) 0).2.split (t.condLeq v) 0).1.split
      (t.condCutN (((t.root.split (t.condLess v) 0).2.split
        (t.condLeq v) 0).1.safeSize - (if n < 0 then _ else n))) 0).2.safeSize = _
    rw [hzero]
  have hpost : (t.EraseRightmost v n).2.root =
      merge (t.root.split (t.condLess v) 0).1
        (merge
          (((t.root.split (t.condLess v) 0).2.split (t.condLeq v) 0).1.split
            (t.condCutN 0) 0).1
          ((t.root.split (t.condLess v) 0).2.split (t.condLeq v) 0).2) := by
    show merge _ (merge (((t.root.split (t.condLess v) 0).2.split
      (t.condLeq v) 0).1.split (t.condCutN (((t.root.split (t.condLess v) 0).2.split
        (t.condLeq v) 0).1.safeSize - (if n < 0 then _ else n))) 0).1 _) = _
    rw [hzero]
  constructor
  · rw [hcnt, Node.sizeOK_safeSize k2.2.2.1, hdrop, f1]
  · rw [hpost, inorder_merge, inorder_merge, htake, e1, f2]
    simp

/-- The two erase-range panic checks fire exactly on logically impossible
ranges: an inverted range, or (under a strict total order) a degenerate
`start = end` range with an exclusive bound. -/
theorem rangeChecks_iff {lt : T → T → Bool} (hst : IsSTO lt)
    (s e : T) (iS iE : Bool) :
    (lt e s = true ∨ (lt s e = false ∧ (iS = false ∨ iE = false))) ↔
      (lt e s = true ∨ (s = e ∧ (iS = false ∨ iE = false))) := by
  constructor
  · rintro (h | ⟨hse, hx⟩)
    · exact Or.inl h
    · cases hes : lt e s with
      | true => exact Or.inl rfl
      | false => exact Or.inr ⟨hst.eq_of_not_lt hse hes, hx⟩
  · rintro (h | ⟨rfl, hx⟩)
    · exact Or.inl h
    · exact Or.inr ⟨hst.irrefl s, hx⟩

theorem EraseRange_panic_iff {t : Treap T} (s e : T) (iS iE : Bool) :
    (∃ msg, (t.EraseRange s iS e iE).1 = Except.error msg) ↔
      (t.lessFn e s = true ∨
        (t.lessFn s e = false ∧ (iS = false ∨ iE = false))) := by
  rw [Treap.EraseRange]
  by_cases h1 : t.lessFn e s = true
  · simp [h1]
  · rw [if_neg h1]
    by_cases h2 : (!(t.lessFn s e) && (!iS || !iE)) = true
    · rw [if_pos h2]
      simp only [Bool.and_eq_true, Bool.or_eq_true, Bool.not_eq_true'] at h2
      simp [h2.1, h2.2]
    · rw [if_neg h2]
      simp only [Bool.and_eq_true, Bool.or_eq_true, Bool.not_eq_true'] at h2
      push_neg at h2
      constructor
      · rintro ⟨msg, hmsg⟩
        exact absurd hmsg (by simp)
      · rintro (hx | ⟨hse, hx⟩)
        · exact absurd hx h1
        · rcases hx with hx | hx
          · have := h2 hse
            rcases this with ⟨hiS, hiE⟩
            rw [hx] at hiS
            simp at hiS
          · have := h2 hse
            rcases this with ⟨hiS, hiE⟩
            rw [hx] at hiE
            simp at hiE

theorem EraseRange_panic_state {t : Treap T} (s e : T) (iS iE : Bool)
    (msg : String) (h : (t.EraseRange s iS e iE).1 = Except.error msg) :
    (t.EraseRange s iS e iE).2 = t := by
  rw [Treap.EraseRange] at h ⊢
  by_cases h1 : t.lessFn e s = true
  · rw [if_pos h1]
  · rw [if_neg h1] at h ⊢
    by_cases h2 : (!(t.lessFn s e) && (!iS || !iE)) = true
    · rw [if_pos h2]
    · rw [if_neg h2] at h ⊢
      exact absurd h (by simp)

theorem ok_chain_ne_error {c1 c2 c3 : Prop} [Decidable c1] [Decidable c2]
    [Decidable c3] {a b c d : Int} (msg : String) :
    (if c1 then Except.ok a else if c2 then Except.ok b
      else if c3 then Except.ok c else Except.ok d) ≠
      (Except.error msg : Except String Int) := by
  split_ifs <;> simp

theorem CountRange_panic_iff {t : Treap T} (s e : T) (iS iE : Bool) :
    (∃ msg, t.CountRange s iS e iE = Except.error msg) ↔
      (t.lessFn e s = true ∨
        (t.lessFn s e = false ∧ (iS = false ∨ iE = false))) := by
  rw [Treap.CountRange]
  by_cases h1 : t.lessFn e s = true
  · simp [h1]
  · rw [if_neg h1]
    by_cases h2 : (!(t.lessFn s e) && (!iS || !iE)) = true
    · rw [if_pos h2]
      simp only [Bool.and_eq_true, Bool.or_eq_true, Bool.not_eq_true'] at h2
      simp [h2.1, h2.2]
    · rw [if_neg h2]
      simp only [Bool.and_eq_true, Bool.or_eq_true, Bool.not_eq_true'] at h2
      push_neg at h2
      constructor
      · rintro ⟨msg, hmsg⟩
        exact absurd hmsg (ok_chain_ne_error msg)
      · rintro (hx | ⟨hse, hx⟩)
        · exact absurd hx h1
        · have := h2 hse
          rcases hx with hx | hx
          · rw [hx] at this
            simp at this
          · rw [hx] at this
            simp at this

theorem EraseRange_Inv {t : Treap T} (hst : IsSTO t.lessFn) (hI : Inv t)
    (s e : T) (iS iE : Bool) :
    Inv (t.EraseRange s iS e iE).2 ∧
      (t.EraseRange s iS e iE).2.lessFn = t.lessFn := by
  by_cases h1 : t.lessFn e s = true
  · rw [Treap.EraseRange, if_pos h1]
    exact ⟨hI, rfl⟩
  · by_cases h2 : (!(t.lessFn s e) && (!iS || !iE)) = true
    · rw [Treap.EraseRange, if_neg h1, if_pos h2]
      exact ⟨hI, rfl⟩
    · rw [Treap.EraseRange, if_neg h1, if_neg h2]
      have hes : t.lessFn e s = false := by simpa using h1
      refine ⟨?_, rfl⟩
      cases iS <;> cases iE
      · -- exclusive start, exclusive end: condLeq start, condLess end
        have hse : t.lessFn s e = true := by simpa using h2
        obtain ⟨e1, e2, i1, i2⟩ := split_condLeq_spec hst hI s
        have hcq : (fun x (_ : Int) => !(t.lessFn s x)) = t.condLeq s := rfl
        rw [hcq] at e1 e2 i1 i2
        show InvRoot t.lessFn (merge (t.root.split (t.condLeq s) 0).1
          ((t.root.split (t.condLeq s) 0).2.split (t.condLess e) 0).2)
        obtain ⟨f1, f2, j1, j2⟩ := split_condLess_spec hst i2 e
        have hcl : (fun x (_ : Int) => t.lessFn x e) = t.condLess e := rfl
        rw [hcl] at f1 f2 j1 j2
        refine InvRoot_merge i1 j2 ?_
        intro x hx y hy
        rw [e1] at hx
        have hsx : t.lessFn s x = false := by
          simpa using mem_takeWhile_pred (fun z => !(t.lessFn s z)) hx
        rw [f2] at hy
        have hye : t.lessFn y e = false :=
          dropWhile_less_spec hst i2.1 e hy
        cases hb : t.lessFn y x with
        | false => rfl
        | true =>
          rcases hst.total y s with hz | hz | hz
          · have := hst.trans y s e hz hse
            rw [this] at hye
            simp at hye
          · rw [hz] at hb
            rw [hb] at hsx
            simp at hsx
          · have := hst.trans s y x hz hb
            rw [this] at hsx
            simp at hsx
      · -- exclusive start, inclusive end: condLeq start, condLeq end
        obtain ⟨e1, e2, i1, i2⟩ := split_condLeq_spec hst hI s
        have hcq : (fun x (_ : Int) => !(t.lessFn s x)) = t.condLeq s := rfl
        rw [hcq] at e1 e2 i1 i2
        show InvRoot t.lessFn (merge (t.root.split (t.condLeq s) 0).1
          ((t.root.split (t.condLeq s) 0).2.split (t.condLeq e) 0).2)
        obtain ⟨f1, f2, j1, j2⟩ := split_condLeq_spec hst i2 e
        have hcq2 : (fun x (_ : Int) => !(t.lessFn e x)) = t.condLeq e := rfl
        rw [hcq2] at f1 f2 j1 j2
        refine InvRoot_merge i1 j2 ?_
        intro x hx y hy
        rw [e1] at hx
        have hsx : t.lessFn s x = false := by
          simpa using mem_takeWhile_pred (fun z => !(t.lessFn s z)) hx
        rw [f2] at hy
        have hey : t.lessFn e y = true :=
          dropWhile_leq_spec hst i2.1 e hy
        have hex : t.lessFn e x = false := hst.not_lt_trans hes hsx
        exact lt_false_of_not_lt_of_lt hst hex hey
      · -- inclusive start, exclusive end: condLess start, condLess end
        obtain ⟨e1, e2, i1, i2⟩ := split_condLess_spec hst hI s
        have hcl : (fun x (_ : Int) => t.lessFn x s) = t.condLess s := rfl
        rw [hcl] at e1 e2 i1 i2
        show InvRoot t.lessFn (merge (t.root.split (t.condLess s) 0).1
          ((t.root.split (t.condLess s) 0).2.split (t.condLess e) 0).2)
        obtain ⟨f1, f2, j1, j2⟩ := split_condLess_spec hst i2 e
        have hcl2 : (fun x (_ : Int) => t.lessFn x e) = t.condLess e := rfl
        rw [hcl2] at f1 f2 j1 j2
        refine InvRoot_merge i1 j2 ?_
        intro x hx y hy
        rw [e1] at hx
        have hxs : t.lessFn x s = true :=
          mem_takeWhile_pred (fun z => t.lessFn z s) hx
        rw [f2] at hy
        have hye : t.lessFn y e = false :=
          dropWhile_less_spec hst i2.1 e hy
        have hys : t.lessFn y s = false := hst.not_lt_trans hye hes
        exact lt_false_of_lt_of_not_lt hst hxs hys
      · -- inclusive start, inclusive end: condLess start, condLeq end
        obtain ⟨e1, e2, i1, i2⟩ := split_condLess_spec hst hI s
        have hcl : (fun x (_ : Int) => t.lessFn x s) = t.condLess s := rfl
        rw [hcl] at e1 e2 i1 i2
        show InvRoot t.lessFn (merge (t.root.split (t.condLess s) 0).1
          ((t.root.split (t.condLess s) 0).2.split (t.condLeq e) 0).2)
        obtain ⟨f1, f2, j1, j2⟩ := split_condLeq_spec hst i2 e
        have hcq2 : (fun x (_ : Int) => !(t.lessFn e x)) = t.condLeq e := rfl
        rw [hcq2] at f1 f2 j1 j2
        refine InvRoot_merge i1 j2 ?_
        intro x hx y hy
        rw [e1] at hx
        have hxs : t.lessFn x s = true :=
          mem_takeWhile_pred (fun z => t.lessFn z s) hx
        rw [f2] at hy
        have hey : t.lessFn e y = true :=
          dropWhile_leq_spec hst i2.1 e hy
        cases hb : t.lessFn y x with
        | false => rfl
        | true =>
          have hz1 := hst.trans e y x hey hb
          have hz2 := hst.trans e x s hz1 hxs
          rw [hz2] at hes
          simp at hes

theorem sorted_cross_take_drop {lt : T → T → Bool} {l : List T}
    (hs : Sorted lt l) (n m : Nat) :
    ∀ x ∈ l.take n, ∀ y ∈ (l.drop n).drop m, lt y x = false := by
  intro x hx y hy
  have hy' : y ∈ l.drop n := (List.drop_sublist _ _).mem hy
  have hdecomp := hs
  rw [← List.take_append_drop n l] at hdecomp
  exact (List.pairwise_append.1 hdecomp).2.2 x hx y hy'

theorem EraseAt_neg_count {t : Treap T} (index : Int) {count : Int}
    (hc : count < 0) :
    (t.EraseAt index count).1 = Except.error "count must not be negative" ∧
      (t.EraseAt index count).2 = t := by
  rw [Treap.EraseAt, if_pos hc]
  exact ⟨rfl, rfl⟩

theorem EraseAt_Inv {t : Treap T} (hI : Inv t) (index count : Int) :
    Inv (t.EraseAt index count).2 ∧
      (t.EraseAt index count).2.lessFn = t.lessFn := by
  rw [Treap.EraseAt]
  by_cases hc : count < 0
  · rw [if_pos hc]
    exact ⟨hI, rfl⟩
  · rw [if_neg hc]
    by_cases hsz : t.root.safeSize = 0
    · rw [if_pos hsz]
      exact ⟨hI, rfl⟩
    · rw [if_neg hsz]
      by_cases hb : (if index < 0 then t.root.safeSize + index else index) < 0 ∨
          (if index < 0 then t.root.safeSize + index else index) ≥ t.root.safeSize
      · rw [if_pos hb]
        exact ⟨hI, rfl⟩
      · rw [if_neg hb]
        refine ⟨?_, rfl⟩
        obtain ⟨e1, e2, i1, i2⟩ := split_condCut_spec hI
          (if index < 0 then t.root.safeSize + index else index)
        have hcc : (fun (_ : T) k => decide
            (k < (if index < 0 then t.root.safeSize + index else index))) =
            t.condCutN (if index < 0 then t.root.safeSize + index else index) := rfl
        rw [hcc] at e1 e2 i1 i2
        obtain ⟨f1, f2, j1, j2⟩ := split_condCut_spec i2 count
        have hcc2 : (fun (_ : T) k => decide (k < count)) = t.condCutN count := rfl
        rw [hcc2] at f1 f2 j1 j2
        show InvRoot t.lessFn (merge _ _)
        refine InvRoot_merge i1 j2 ?_
        intro x hx y hy
        rw [e1] at hx
        rw [f2, e2] at hy
        exact sorted_cross_take_drop hI.1 _ _ x hx y hy

theorem PopLeftmost_Inv {t : Treap T} (hI : Inv t) :
    Inv (t.PopLeftmost).2 ∧ (t.PopLeftmost).2.lessFn = t.lessFn := by
  have hI' : InvRoot t.lessFn t.root := hI
  cases hr : t.root with
  | nil =>
    rw [Treap.PopLeftmost, hr]
    exact ⟨hI, rfl⟩
  | node i v p l r par sz =>
    rw [hr] at hI'
    obtain ⟨g1, g2, k1, k2⟩ := split_condCut_spec hI' (1 : Int)
    have hcc : (fun (_ : T) k => decide (k < (1 : Int))) = t.condCutN 1 := rfl
    rw [hcc] at g1 g2 k1 k2
    rw [Treap.PopLeftmost, hr]
    exact ⟨k2, rfl⟩

theorem PopRightmost_Inv {t : Treap T} (hI : Inv t) :
    Inv (t.PopRightmost).2 ∧ (t.PopRightmost).2.lessFn = t.lessFn := by
  have hI' : InvRoot t.lessFn t.root := hI
  cases hr : t.root with
  | nil =>
    rw [Treap.PopRightmost, hr]
    exact ⟨hI, rfl⟩
  | node i v p l r par sz =>
    rw [hr] at hI'
    obtain ⟨g1, g2, k1, k2⟩ := split_condCut_spec hI'
      ((Node.node i v p l r par sz).safeSize - 1)
    have hcc : (fun (_ : T) k => decide
        (k < ((Node.node i v p l r par sz).safeSize - 1))) =
        t.condCutN ((Node.node i v p l r par sz).safeSize - 1) := rfl
    rw [hcc] at g1 g2 k1 k2
    rw [Treap.PopRightmost, hr]
    exact ⟨k1, rfl⟩

theorem Clear_Inv (t : Treap T) :
    Inv (t.Clear) ∧ (t.Clear).lessFn = t.lessFn :=
  ⟨InvRoot_nil, rfl⟩

/-- `SplitBefore` produces the strictly-below-threshold prefix and the
rest, both valid treaps sharing the comparator; the receiver is emptied. -/
theorem SplitBefore_spec {t : Treap T} (hst : IsSTO t.lessFn) (hI : Inv t)
    (v : T) :
    (t.SplitBefore v).1.root.inorder =
        t.root.inorder.takeWhile (fun x => t.lessFn x v) ∧
      (t.SplitBefore v).2.1.root.inorder =
        t.root.inorder.dropWhile (fun x => t.lessFn x v) ∧
      Inv (t.SplitBefore v).1 ∧ Inv (t.SplitBefore v).2.1 ∧
      Inv (t.SplitBefore v).2.2 ∧
      (t.SplitBefore v).1.lessFn = t.lessFn ∧
      (t.SplitBefore v).2.1.lessFn = t.lessFn ∧
      (t.SplitBefore v).2.2.root = Node.nil := by
  obtain ⟨e1, e2, i1, i2⟩ := split_condLess_spec hst hI v
  have hcl : (fun x (_ : Int) => t.lessFn x v) = t.condLess v := rfl
  rw [hcl] at e1 e2 i1 i2
  exact ⟨e1, e2, i1, i2, InvRoot_nil, rfl, rfl, rfl⟩

theorem SplitAfter_spec {t : Treap T} (hst : IsSTO t.lessFn) (hI : Inv t)
    (v : T) :
    (t.SplitAfter v).1.root.inorder =
        t.root.inorder.takeWhile (fun x => !(t.lessFn v x)) ∧
      (t.SplitAfter v).2.1.root.inorder =
        t.root.inorder.dropWhile (fun x => !(t.lessFn v x)) ∧
      Inv (t.SplitAfter v).1 ∧ Inv (t.SplitAfter v).2.1 ∧
      Inv (t.SplitAfter v).2.2 ∧
      (t.SplitAfter v).1.lessFn = t.lessFn ∧
      (t.SplitAfter v).2.1.lessFn = t.lessFn ∧
      (t.SplitAfter v).2.2.root = Node.nil := by
  obtain ⟨e1, e2, i1, i2⟩ := split_condLeq_spec hst hI v
  have hcq : (fun x (_ : Int) => !(t.lessFn v x)) = t.condLeq v := rfl
  rw [hcq] at e1 e2 i1 i2
  exact ⟨e1, e2, i1, i2, InvRoot_nil, rfl, rfl, rfl⟩

/-- `Cut` at the normalized position: negative counts are taken from the
end and clamped at zero, exactly as the source computes them. -/
theorem Cut_spec {t : Treap T} (hI : Inv t) (n : Int) :
    (t.Cut n).1.root.inorder =
        t.root.inorder.take (if n < 0 then
          (if t.root.safeSize + n < 0 then 0 else t.root.safeSize + n)
        else n).toNat ∧
      (t.Cut n).2.1.root.inorder =
        t.root.inorder.drop (if n < 0 then
          (if t.root.safeSize + n < 0 then 0 else t.root.safeSize + n)
        else n).toNat ∧
      Inv (t.Cut n).1 ∧ Inv (t.Cut n).2.1 ∧ Inv (t.Cut n).2.2 ∧
      (t.Cut n).1.lessFn = t.lessFn ∧ (t.Cut n).2.1.lessFn = t.lessFn ∧
      (t.Cut n).2.2.root = Node.nil := by
  obtain ⟨e1, e2, i1, i2⟩ := split_condCut_spec hI
    (if n < 0 then
      (if t.root.safeSize + n < 0 then 0 else t.root.safeSize + n)
    else n)
  have hcc : (fun (_ : T) k => decide
      (k < (if n < 0 then
        (if t.root.safeSize + n < 0 then 0 else t.root.safeSize + n)
      else n))) =
      t.condCutN (if n < 0 then
        (if t.root.safeSize + n < 0 then 0 else t.root.safeSize + n)
      else n) := rfl
  rw [hcc] at e1 e2 i1 i2
  exact ⟨e1, e2, i1, i2, InvRoot_nil, rfl, rfl, rfl⟩

/-- The free `Merge`: the new container's traversal is the concatenation
of the sources' traversals, and the source containers come back exactly
as they went in — no assignment in the source ever clears their roots. -/
theorem Merge_spec (a b : Treap T) :
    (Merge a b).1.root.inorder = a.root.inorder ++ b.root.inorder ∧
      (Merge a b).2.1 = a ∧ (Merge a b).2.2 = b ∧
      (Merge a b).1.lessFn = a.lessFn :=
  ⟨inorder_merge _ _, rfl, rfl, rfl⟩

theorem Merge_Inv {a b : Treap T} (hA : Inv a) (hB : Inv b)
    (hl : b.lessFn = a.lessFn)
    (hcross : ∀ x ∈ a.root.inorder, ∀ y ∈ b.root.inorder,
      a.lessFn y x = false) :
    Inv (Merge a b).1 := by
  have hB0 : InvRoot b.lessFn b.root := hB
  rw [hl] at hB0
  exact InvRoot_merge hA hB0 hcross

theorem foldMerge_spec {lt : T → T → Bool} (prios : Nat → Int)
    (ids : Nat → Nat) :
    ∀ (xs : List (Nat × T)) (acc : Node T), InvRoot lt acc →
      Sorted lt (acc.inorder ++ xs.map Prod.snd) →
      InvRoot lt (xs.foldl
          (fun acc p => merge acc (Node.newNode p.2 (prios p.1) (ids p.1))) acc) ∧
        (xs.foldl
          (fun acc p => merge acc (Node.newNode p.2 (prios p.1) (ids p.1)))
          acc).inorder = acc.inorder ++ xs.map Prod.snd := by
  intro xs
  induction xs with
  | nil =>
    intro acc hacc hsort
    refine ⟨hacc, ?_⟩
    simp
  | cons hd rest ih =>
    intro acc hacc hsort
    simp only [List.map_cons] at hsort
    have hcross : ∀ x ∈ acc.inorder,
        ∀ y ∈ (Node.newNode hd.2 (prios hd.1) (ids hd.1)).inorder,
        lt y x = false := by
      intro x hx y hy
      rw [inorder_newNode] at hy
      rcases List.mem_singleton.1 hy with rfl
      exact (List.pairwise_append.1 hsort).2.2 x hx hd.2 (List.mem_cons_self _ _)
    have hstep : InvRoot lt (merge acc (Node.newNode hd.2 (prios hd.1) (ids hd.1))) :=
      InvRoot_merge hacc (InvRoot_newNode _ _ _) hcross
    have hstepord : (merge acc (Node.newNode hd.2 (prios hd.1) (ids hd.1))).inorder =
        acc.inorder ++ [hd.2] := by
      rw [inorder_merge, inorder_newNode]
    have hsort' : Sorted lt
        ((merge acc (Node.newNode hd.2 (prios hd.1) (ids hd.1))).inorder ++
          rest.map Prod.snd) := by
      rw [hstepord, ← List.append_cons]
      exact hsort
    obtain ⟨ha, hb⟩ := ih (merge acc (Node.newNode hd.2 (prios hd.1) (ids hd.1)))
      hstep hsort'
    refine ⟨ha, ?_⟩
    simp only [List.foldl_cons] at hb ⊢
    rw [hb, hstepord, ← List.append_cons]
    simp

theorem mergeSort_le_facts {lt : T → T → Bool} (hst : IsSTO lt) :
    (∀ a b c : T, (!(lt b a)) = true → (!(lt c b)) = true → (!(lt c a)) = true) ∧
      (∀ a b : T, ((!(lt b a)) || (!(lt a b))) = true) := by
  constructor
  · intro a b c h1 h2
    simp only [Bool.not_eq_true'] at h1 h2 ⊢
    exact hst.not_lt_trans h2 h1
  · intro a b
    cases hab : lt a b with
    | false => simp [hab]
    | true =>
      have := hst.asymm hab
      simp [this]

theorem Sorted_mergeSort {lt : T → T → Bool} (hst : IsSTO lt)
    (values : List T) :
    Sorted lt (values.mergeSort (fun a b => !(lt b a))) := by
  obtain ⟨htr, hto⟩ := mergeSort_le_facts hst
  have := List.sorted_mergeSort htr hto values
  refine this.imp ?_
  intro a b h
  simpa using h

/-- Constructor specification: the initial traversal is the sorted input
and the container starts valid. -/
theorem NewTreapWithRand_spec {lt : T → T → Bool} (hst : IsSTO lt)
    (values : List T) (prios : Nat → Int) (ids : Nat → Nat) :
    (NewTreapWithRand lt values prios ids).root.inorder =
        values.mergeSort (fun a b => !(lt b a)) ∧
      Inv (NewTreapWithRand lt values prios ids) ∧
      (NewTreapWithRand lt values prios ids).lessFn = lt := by
  have hsorted := Sorted_mergeSort hst values
  have hmap : (values.mergeSort (fun a b => !(lt b a))).enum.map Prod.snd =
      values.mergeSort (fun a b => !(lt b a)) := List.enum_map_snd _
  obtain ⟨hinv, hord⟩ := foldMerge_spec prios ids
    (values.mergeSort (fun a b => !(lt b a))).enum Node.nil InvRoot_nil
    (by simpa [Node.inorder, hmap] using hsorted)
  refine ⟨?_, hinv, rfl⟩
  show ((values.mergeSort (fun a b => !(lt b a))).enum.foldl _ Node.nil).inorder = _
  rw [hord]
  simp [Node.inorder, hmap]

end OpSpecs

/-! ## Order-statistic lookup: paths, positions and `At`/`Index` -/

section PathLemmas

variable {T : Type u}

theorem subtreeAt_pathTo : ∀ (t : Node T) (k : Nat), t.sizeOK →
    k < t.inorder.length →
    ∃ n, t.subtreeAt (pathTo t k) = some n ∧ n.Value = t.inorder[k]? := by
  intro t
  induction t with
  | nil => intro k _ hk; simp [Node.inorder] at hk
  | node i v p l r par sz ihl ihr =>
    intro k hs hk
    obtain ⟨hsl, hsr, -⟩ := hs
    rw [pathTo]
    by_cases h1 : k < l.inorder.length
    · rw [if_pos h1]
      obtain ⟨n, hn, hv⟩ := ihl k hsl h1
      refine ⟨n, ?_, ?_⟩
      · simpa [Node.subtreeAt] using hn
      · rw [hv]
        simp only [Node.inorder]
        rw [List.getElem?_append, if_pos h1]
    · rw [if_neg h1]
      by_cases h2 : k = l.inorder.length
      · rw [if_pos h2]
        refine ⟨Node.node i v p l r par sz, by simp [Node.subtreeAt], ?_⟩
        simp only [Node.Value, Node.inorder]
        rw [List.getElem?_append_right (by omega), h2]
        simp
      · rw [if_neg h2]
        have hk' : k - l.inorder.length - 1 < r.inorder.length := by
          simp only [Node.inorder, List.length_append, List.length_cons] at hk
          omega
        obtain ⟨n, hn, hv⟩ := ihr (k - l.inorder.length - 1) hsr hk'
        refine ⟨n, by simpa [Node.subtreeAt] using hn, ?_⟩
        rw [hv]
        simp only [Node.inorder]
        rw [List.getElem?_append_right (by omega), List.getElem?_cons_succ.symm]
        congr 1
        omega

theorem Index_pathTo : ∀ (t : Node T) (k : Nat), t.sizeOK →
    k < t.inorder.length → t.Index (pathTo t k) = (k : Int) := by
  intro t
  induction t with
  | nil => intro k _ hk; simp [Node.inorder] at hk
  | node i v p l r par sz ihl ihr =>
    intro k hs hk
    obtain ⟨hsl, hsr, -⟩ := hs
    rw [pathTo]
    by_cases h1 : k < l.inorder.length
    · rw [if_pos h1]
      simpa [Node.Index] using ihl k hsl h1
    · rw [if_neg h1]
      by_cases h2 : k = l.inorder.length
      · rw [if_pos h2]
        simp only [Node.Index]
        rw [Node.sizeOK_safeSize hsl, h2]
      · rw [if_neg h2]
        have hk' : k - l.inorder.length - 1 < r.inorder.length := by
          simp only [Node.inorder, List.length_append, List.length_cons] at hk
          omega
        simp only [Node.Index]
        rw [Node.sizeOK_safeSize hsl, ihr (k - l.inorder.length - 1) hsr hk']
        omega

theorem pathTo_Index : ∀ (p : Path) (t : Node T) (n : Node T), t.sizeOK →
    t.subtreeAt p = some n →
    0 ≤ t.Index p ∧ t.Index p < t.inorder.length ∧
      pathTo t (t.Index p).toNat = p := by
  intro p
  induction p with
  | nil =>
    intro t n hs hp
    cases t with
    | nil => simp [Node.subtreeAt] at hp
    | node i v p' l r par sz =>
      obtain ⟨hsl, hsr, -⟩ := hs
      simp only [Node.Index]
      rw [Node.sizeOK_safeSize hsl]
      refine ⟨by positivity, ?_, ?_⟩
      · simp only [Node.inorder, List.length_append, List.length_cons]
        push_cast
        omega
      · rw [pathTo, Int.toNat_natCast]
        rw [if_neg (by omega), if_pos rfl]
  | cons d ds ih =>
    intro t n hs hp
    cases t with
    | nil => simp [Node.subtreeAt] at hp
    | node i v p' l r par sz =>
      obtain ⟨hsl, hsr, -⟩ := hs
      cases d with
      | left =>
        simp only [Node.subtreeAt] at hp
        obtain ⟨h0, h1, h2⟩ := ih l n hsl hp
        simp only [Node.Index]
        refine ⟨h0, ?_, ?_⟩
        · simp only [Node.inorder, List.length_append, List.length_cons]
          push_cast
          omega
        · rw [pathTo, if_pos (by omega), h2]
      | right =>
        simp only [Node.subtreeAt] at hp
        obtain ⟨h0, h1, h2⟩ := ih r n hsr hp
        simp only [Node.Index]
        rw [Node.sizeOK_safeSize hsl]
        refine ⟨by omega, ?_, ?_⟩
        · simp only [Node.inorder, List.length_append, List.length_cons]
          push_cast
          omega
        · rw [pathTo, if_neg (by omega), if_neg (by omega)]
          congr 1
          rw [show ((l.inorder.length : Int) + 1 + r.Index ds).toNat -
              l.inorder.length - 1 = (r.Index ds).toNat from by omega]
          exact h2

theorem lookup_cut_none : ∀ (t : Node T) (off n : Int), t.sizeOK →
    off + t.inorder.length ≤ n →
    (t.lookupLeftmostUnmatch (fun (_ : T) i => decide (i < n)) off).1 = none := by
  intro t
  induction t with
  | nil => intro off n _ _; simp [Node.lookupLeftmostUnmatch]
  | node i v p l r par sz ihl ihr =>
    intro off n hs hn
    obtain ⟨hsl, hsr, -⟩ := hs
    simp only [Node.inorder, List.length_append, List.length_cons] at hn
    push_cast at hn
    rw [Node.lookupLeftmostUnmatch]
    rw [if_pos (by
      simp only [decide_eq_true_eq]
      rw [Node.sizeOK_safeSize hsl]
      omega)]
    refine ihr _ n hsr ?_
    rw [Node.sizeOK_safeSize hsl]
    omega

theorem lookup_cut_spec : ∀ (t : Node T) (off n : Int), t.sizeOK →
    off ≤ n → n < off + t.inorder.length →
    (t.lookupLeftmostUnmatch (fun (_ : T) i => decide (i < n)) off).1 =
        t.subtreeAt (pathTo t (n - off).toNat) ∧
      (t.lookupLeftmostUnmatch (fun (_ : T) i => decide (i < n)) off).2 = n := by
  intro t
  induction t with
  | nil =>
    intro off n _ h1 h2
    simp only [Node.inorder, List.length_nil] at h2
    omega
  | node i v p l r par sz ihl ihr =>
    intro off n hs h1 h2
    obtain ⟨hsl, hsr, -⟩ := hs
    simp only [Node.inorder, List.length_append, List.length_cons] at h2
    push_cast at h2
    rw [Node.lookupLeftmostUnmatch, pathTo]
    by_cases hc : off + l.safeSize < n
    · rw [if_pos (by simpa using hc)]
      rw [Node.sizeOK_safeSize hsl] at hc
      obtain ⟨ih1, ih2⟩ := ihr (off + l.safeSize + 1) n hsr
        (by rw [Node.sizeOK_safeSize hsl]; omega)
        (by rw [Node.sizeOK_safeSize hsl]; omega)
      rw [if_neg (by omega), if_neg (by omega)]
      refine ⟨?_, ih2⟩
      rw [ih1]
      simp only [Node.subtreeAt]
      congr 2
      rw [Node.sizeOK_safeSize hsl]
      omega
    · rw [if_neg (by simpa using hc)]
      rw [Node.sizeOK_safeSize hsl] at hc
      by_cases he : n = off + l.inorder.length
      · have hnone := lookup_cut_none l off n hsl (by omega)
        rcases hlk : l.lookupLeftmostUnmatch (fun (_ : T) i => decide (i < n)) off
          with ⟨o, idx⟩
        rw [hlk] at hnone
        have ho2 : o = none := hnone
        subst ho2
        refine ⟨?_, ?_⟩
        · show some (Node.node i v p l r par sz) = _
          rw [if_neg (by omega), if_pos (by omega)]
          simp [Node.subtreeAt]
        · show off + l.safeSize = n
          rw [Node.sizeOK_safeSize hsl]
          omega
      · obtain ⟨ih1, ih2⟩ := ihl off n hsl h1 (by omega)
        obtain ⟨m, hm, -⟩ := subtreeAt_pathTo l (n - off).toNat hsl (by omega)
        have ho : (l.lookupLeftmostUnmatch (fun (_ : T) i => decide (i < n)) off).1 =
            some m := by
          rw [ih1, hm]
        rcases hlk : l.lookupLeftmostUnmatch (fun (_ : T) i => decide (i < n)) off
          with ⟨o, idx⟩
        rw [hlk] at ho ih2
        have ho2 : o = some m := ho
        subst ho2
        have hidx : idx = n := ih2
        refine ⟨?_, ?_⟩
        · show some m = _
          rw [if_pos (by omega)]
          simp only [Node.subtreeAt]
          exact hm.symm
        · show idx = n
          exact hidx

theorem At_lookup {t : Treap T} (hz : t.root.sizeOK) {j : Int}
    (h0 : 0 ≤ j) (h1 : j < t.root.inorder.length) :
    (t.root.lookupLeftmostUnmatch (t.condCutN j) 0).1 =
      t.root.subtreeAt (pathTo t.root j.toNat) := by
  have hc : t.condCutN j = fun (_ : T) i => decide (i < j) := rfl
  rw [hc]
  obtain ⟨a, -⟩ := lookup_cut_spec t.root 0 j hz (by omega) (by omega)
  rw [show (j - 0).toNat = j.toNat from by omega] at a
  exact a

/-- Full behavioral specification of `At`: `none` exactly outside
`[-Size, Size)`, Python-style normalization of negative indices, and the
returned node is the one at the normalized in-order position. -/
theorem At_spec {t : Treap T} (hz : t.root.sizeOK) (i : Int) :
    (t.At i = none ↔
        (t.root.safeSize = 0 ∨ i < -t.root.safeSize ∨ i ≥ t.root.safeSize)) ∧
      (0 ≤ i → i < t.root.safeSize →
        ∃ n, t.At i = some n ∧
          t.root.subtreeAt (pathTo t.root i.toNat) = some n ∧
          n.Value = t.root.inorder[i.toNat]?) ∧
      (-t.root.safeSize ≤ i → i < 0 →
        ∃ n, t.At i = some n ∧
          n.Value = t.root.inorder[(t.root.safeSize + i).toNat]?) := by
  have hsz := Node.sizeOK_safeSize hz
  by_cases hout : t.root.safeSize = 0 ∨ i < -t.root.safeSize ∨ i ≥ t.root.safeSize
  · rw [Treap.At, if_pos hout]
    refine ⟨⟨fun _ => hout, fun _ => rfl⟩, ?_, ?_⟩
    · intro h0 h1
      exfalso
      rcases hout with h | h | h <;> omega
    · intro h0 h1
      exfalso
      rcases hout with h | h | h <;> omega
  · rw [Treap.At, if_neg hout]
    push_neg at hout
    obtain ⟨hne, hlow, hhigh⟩ := hout
    refine ⟨?_, ?_, ?_⟩
    · constructor
      · intro hnone
        exfalso
        have hj0 : 0 ≤ (if i < 0 then t.root.safeSize + i else i) := by
          by_cases hi : i < 0
          · rw [if_pos hi]; omega
          · rw [if_neg hi]; omega
        have hj1 : (if i < 0 then t.root.safeSize + i else i) <
            t.root.inorder.length := by
          by_cases hi : i < 0
          · rw [if_pos hi]; omega
          · rw [if_neg hi]; omega
        rw [At_lookup hz hj0 hj1] at hnone
        obtain ⟨n, hn, -⟩ := subtreeAt_pathTo t.root
          (if i < 0 then t.root.safeSize + i else i).toNat hz (by omega)
        rw [hn] at hnone
        exact absurd hnone (by simp)
      · intro h
        exfalso
        rcases h with h | h | h <;> omega
    · intro h0 h1
      have hi : ¬(i < 0) := by omega
      rw [if_neg hi]
      obtain ⟨n, hn, hv⟩ := subtreeAt_pathTo t.root i.toNat hz (by omega)
      refine ⟨n, ?_, hn, hv⟩
      rw [At_lookup hz (by omega) (by omega), hn]
    · intro h0 h1
      rw [if_pos h1]
      obtain ⟨n, hn, hv⟩ := subtreeAt_pathTo t.root
        (t.root.safeSize + i).toNat hz (by omega)
      refine ⟨n, ?_, hv⟩
      rw [At_lookup hz (by omega) (by omega), hn]

end PathLemmas

/-! ## Sequence-level lemmas for the claims -/

section SequenceLemmas

variable {T : Type u}

theorem takeWhile_append_of_all {Q : T → Bool} :
    ∀ {a b : List T}, (∀ x ∈ a, Q x = true) → (∀ y ∈ b, Q y = false) →
      (a ++ b).takeWhile Q = a ∧ (a ++ b).dropWhile Q = b := by
  intro a
  induction a with
  | nil =>
    intro b _ hb
    cases b with
    | nil => simp
    | cons y ys =>
      have := hb y (List.mem_cons_self _ _)
      simp only [List.nil_append]
      rw [List.takeWhile_cons, List.dropWhile_cons]
      rw [if_neg (by simp [this]), if_neg (by simp [this])]
      exact ⟨rfl, rfl⟩
  | cons x xs ih =>
    intro b ha hb
    have hx := ha x (List.mem_cons_self _ _)
    obtain ⟨h1, h2⟩ := ih (fun z hz => ha z (List.mem_cons_of_mem _ hz)) hb
    rw [List.cons_append, List.takeWhile_cons, List.dropWhile_cons]
    rw [if_pos (by simp [hx]), if_pos (by simp [hx]), h1, h2]
    exact ⟨rfl, rfl⟩

/-- The traversal evolution of a whole insertion sequence. -/
theorem applyInsList_spec :
    ∀ (ops : List (InsOp T)) (t : Treap T), IsSTO t.lessFn → Inv t →
      (applyInsList t ops).root.inorder =
          ops.foldl (listIns t.lessFn) t.root.inorder ∧
        Inv (applyInsList t ops) ∧
        (applyInsList t ops).lessFn = t.lessFn := by
  intro ops
  induction ops with
  | nil =>
    intro t hst hI
    exact ⟨rfl, hI, rfl⟩
  | cons op rest ih =>
    intro t hst hI
    cases op with
    | left v prio id =>
      obtain ⟨e1, e2, e3, -⟩ := InsertLeft_spec hst hI v prio id
      have hstep : applyInsList t (InsOp.left v prio id :: rest) =
          applyInsList (t.InsertLeft v prio id).2 rest := rfl
      obtain ⟨f1, f2, f3⟩ := ih (t.InsertLeft v prio id).2 (by rwa [e3]) e2
      rw [hstep]
      refine ⟨?_, f2, by rw [f3, e3]⟩
      rw [f1, e3, e1]
      rfl
    | right v prio id =>
      obtain ⟨e1, e2, e3, -⟩ := InsertRight_spec hst hI v prio id
      have hstep : applyInsList t (InsOp.right v prio id :: rest) =
          applyInsList (t.InsertRight v prio id).2 rest := rfl
      obtain ⟨f1, f2, f3⟩ := ih (t.InsertRight v prio id).2 (by rwa [e3]) e2
      rw [hstep]
      refine ⟨?_, f2, by rw [f3, e3]⟩
      rw [f1, e3, e1]
      rfl

theorem listIns_perm {lt : T → T → Bool} (l : List T) (op : InsOp T) :
    (listIns lt l op).Perm (insValue op :: l) := by
  cases op with
  | left v prio id =>
    show (l.takeWhile (fun x => lt x v) ++ v :: l.dropWhile (fun x => lt x v)).Perm _
    refine List.perm_middle.trans ?_
    rw [List.takeWhile_append_dropWhile]
    rfl
  | right v prio id =>
    show (l.takeWhile (fun x => !(lt v x)) ++ v :: l.dropWhile (fun x => !(lt v x))).Perm _
    refine List.perm_middle.trans ?_
    rw [List.takeWhile_append_dropWhile]
    rfl

theorem foldl_listIns_perm {lt : T → T → Bool} :
    ∀ (ops : List (InsOp T)) (l : List T),
      (ops.foldl (listIns lt) l).Perm (l ++ ops.map insValue) := by
  intro ops
  induction ops with
  | nil => intro l; simp
  | cons op rest ih =>
    intro l
    rw [List.foldl_cons]
    refine (ih (listIns lt l op)).trans ?_
    have h1 : (listIns lt l op ++ rest.map insValue).Perm
        ((insValue op :: l) ++ rest.map insValue) :=
      (listIns_perm l op).append_right _
    refine h1.trans ?_
    rw [List.cons_append, List.map_cons]
    exact List.perm_middle.symm

end SequenceLemmas

/-! ## The claims -/

section Claims

variable {T : Type u}

theorem natLtSTO : IsSTO (fun a b : Nat => decide (a < b)) := by
  refine ⟨fun a => by simp, fun a b c h1 h2 => ?_, fun a b => ?_⟩
  · simp only [decide_eq_true_eq] at h1 h2 ⊢
    omega
  · rcases Nat.lt_trichotomy a b with h | h | h
    · exact Or.inl (by simpa using h)
    · exact Or.inr (Or.inl h)
    · exact Or.inr (Or.inr (by simpa using h))

/-- Claim C3: for two treap-valid, order-disjoint subtrees, `merge`
returns a subtree whose in-order sequence is the concatenation of the
inputs' sequences, with the heap property, sizes and parent pointers
repaired (`InvRoot`), and the root is the input root whose priority is
not strictly lower — ties favor `left` (`left.priority ≥ right.priority`). -/
theorem claim_C3 {lt : T → T → Bool} (l r : Node T)
    (hl : InvRoot lt l) (hr : InvRoot lt r)
    (hdisj : ∀ x ∈ l.inorder, ∀ y ∈ r.inorder, lt y x = false) :
    (merge l r).inorder = l.inorder ++ r.inorder ∧
      InvRoot lt (merge l r) ∧
      ∀ li lv lp ll2 lr2 lpar ls ri rv rp rl2 rr2 rpar rs,
        l = Node.node li lv lp ll2 lr2 lpar ls →
        r = Node.node ri rv rp rl2 rr2 rpar rs →
        (merge l r).nodeId = if lp ≥ rp then some li else some ri := by
  refine ⟨inorder_merge l r, InvRoot_merge hl hr hdisj, ?_⟩
  rintro li lv lp ll2 lr2 lpar ls ri rv rp rl2 rr2 rpar rs rfl rfl
  by_cases hge : lp ≥ rp
  · rw [if_pos hge]
    exact nodeId_merge_left li lv lp ll2 lr2 lpar ls ri rv rp rl2 rr2 rpar rs hge
  · rw [if_neg hge]
    exact nodeId_merge_right li lv lp ll2 lr2 lpar ls ri rv rp rl2 rr2 rpar rs hge

theorem claim_C3_witness :
    InvRoot (fun a b : Nat => decide (a < b))
        (Node.node 0 (1 : Nat) 10 Node.nil Node.nil none 1) ∧
      (merge (Node.node 0 (1 : Nat) 10 Node.nil Node.nil none 1)
        (Node.node 1 2 5 Node.nil Node.nil none 1)).inorder = [1, 2] := by
  have hl : InvRoot (fun a b : Nat => decide (a < b))
      (Node.node 0 (1 : Nat) 10 Node.nil Node.nil none 1) :=
    InvRoot_newNode 1 10 0
  have hr : IsSTO (fun a b : Nat => decide (a < b)) → InvRoot
      (fun a b : Nat => decide (a < b))
      (Node.node 1 (2 : Nat) 5 Node.nil Node.nil none 1) :=
    fun _ => InvRoot_newNode 2 5 1
  have hd : ∀ x ∈ (Node.node 0 (1 : Nat) 10 Node.nil Node.nil none 1).inorder,
      ∀ y ∈ (Node.node 1 (2 : Nat) 5 Node.nil Node.nil none 1).inorder,
      (fun a b : Nat => decide (a < b)) y x = false := by
    intro x hx y hy
    simp [Node.inorder] at hx hy
    subst hx
    subst hy
    decide
  have h := claim_C3 (Node.node 0 (1 : Nat) 10 Node.nil Node.nil none 1)
    (Node.node 1 (2 : Nat) 5 Node.nil Node.nil none 1) hl (hr natLtSTO) hd
  refine ⟨hl, ?_⟩
  rw [h.1]
  rfl

/-- Claim C4 (amended): the free `Merge` returns a container whose
traversal is the concatenation (multiset union) of the two sources'
traversals, but the sources are NOT emptied — the function performs no
assignment to either source, so each keeps the root it had on entry. -/
theorem claim_C4 (a b : Treap T) :
    (Merge a b).1.root.inorder = a.root.inorder ++ b.root.inorder ∧
      (Merge a b).2.1 = a ∧ (Merge a b).2.2 = b ∧
      (Merge a b).1.lessFn = a.lessFn :=
  ⟨inorder_merge _ _, rfl, rfl, rfl⟩

/-- Claim C4 counterexample: after `Merge`, a non-empty source container
still holds its root — it is not left empty as the claim states. -/
theorem claim_C4_counterexample :
    (Merge (Treap.mk (fun a b : Nat => decide (a < b))
        (Node.node 0 1 5 Node.nil Node.nil none 1))
      (Treap.mk (fun a b : Nat => decide (a < b)) Node.nil)).2.1.root ≠
      Node.nil := by
  simp [Merge]

/-- Claim C5: `EraseRange` and `CountRange` abort (panic) exactly when
the end precedes the start under the comparator, or the two bounds are
equal with at least one of them exclusive; on abort the container state
is unchanged. -/
theorem claim_C5 {t : Treap T} (hst : IsSTO t.lessFn) (s e : T)
    (iS iE : Bool) :
    ((∃ msg, (t.EraseRange s iS e iE).1 = Except.error msg) ↔
        (t.lessFn e s = true ∨ (s = e ∧ (iS = false ∨ iE = false)))) ∧
      ((∃ msg, t.CountRange s iS e iE = Except.error msg) ↔
        (t.lessFn e s = true ∨ (s = e ∧ (iS = false ∨ iE = false)))) ∧
      (∀ msg, (t.EraseRange s iS e iE).1 = Except.error msg →
        (t.EraseRange s iS e iE).2 = t) :=
  ⟨(EraseRange_panic_iff s e iS iE).trans (rangeChecks_iff hst s e iS iE),
    (CountRange_panic_iff s e iS iE).trans (rangeChecks_iff hst s e iS iE),
    fun msg h => EraseRange_panic_state s e iS iE msg h⟩

theorem claim_C5_witness :
    IsSTO (fun a b : Nat => decide (a < b)) ∧
      ∃ msg, ((Treap.mk (fun a b : Nat => decide (a < b)) Node.nil).EraseRange
        5 true 4 true).1 = Except.error msg :=
  ⟨natLtSTO, (claim_C5 natLtSTO 5 4 true true).1.mpr (Or.inl (by decide))⟩

/-- Claim C8: `At` supports Python-style negative indices (`-1` is the
last element, `-Size` the first) and returns an absent node — never an
error — exactly when the index is out of range, including on the empty
container. -/
theorem claim_C8 {t : Treap T} (hz : t.root.sizeOK) (i : Int) :
    (t.At i = none ↔
        (t.root.safeSize = 0 ∨ i < -t.root.safeSize ∨ i ≥ t.root.safeSize)) ∧
      (0 ≤ i → i < t.root.safeSize →
        ∃ n, t.At i = some n ∧
          t.root.subtreeAt (pathTo t.root i.toNat) = some n ∧
          n.Value = t.root.inorder[i.toNat]?) ∧
      (-t.root.safeSize ≤ i → i < 0 →
        ∃ n, t.At i = some n ∧
          n.Value = t.root.inorder[(t.root.safeSize + i).toNat]?) :=
  At_spec hz i

theorem claim_C8_witness :
    (Node.node 0 (2 : Nat) 10 (Node.node 1 1 5 Node.nil Node.nil (some 0) 1)
        (Node.node 2 3 4 Node.nil Node.nil (some 0) 1) none 3).sizeOK ∧
      ∃ n, (Treap.mk (fun a b : Nat => decide (a < b))
          (Node.node 0 (2 : Nat) 10
            (Node.node 1 1 5 Node.nil Node.nil (some 0) 1)
            (Node.node 2 3 4 Node.nil Node.nil (some 0) 1) none 3)).At (-1) =
          some n ∧
        n.Value = some 3 := by
  have hz : (Node.node 0 (2 : Nat) 10
      (Node.node 1 1 5 Node.nil Node.nil (some 0) 1)
      (Node.node 2 3 4 Node.nil Node.nil (some 0) 1) none 3).sizeOK := by
    simp [Node.sizeOK, Node.inorder]
  refine ⟨hz, ?_⟩
  obtain ⟨n, h1, h2⟩ := (claim_C8 (t := Treap.mk (fun a b : Nat => decide (a < b))
    (Node.node 0 (2 : Nat) 10
      (Node.node 1 1 5 Node.nil Node.nil (some 0) 1)
      (Node.node 2 3 4 Node.nil Node.nil (some 0) 1) none 3)) hz (-1)).2.2
    (by decide) (by decide)
  refine ⟨n, h1, ?_⟩
  rw [h2]
  decide

/-- Claim C10: `Cut` with negative `n` counts from the end — the left
result carries the first `Size() + n` elements and the right result the
rest; when `Size() + n` is still negative the position clamps to zero,
the left result is empty and everything goes right. -/
theorem claim_C10 {t : Treap T} (hI : Inv t) {n : Int} (hn : n < 0) :
    (t.Cut n).1.root.inorder =
        t.root.inorder.take (if t.root.safeSize + n < 0 then 0
          else t.root.safeSize + n).toNat ∧
      (t.Cut n).2.1.root.inorder =
        t.root.inorder.drop (if t.root.safeSize + n < 0 then 0
          else t.root.safeSize + n).toNat ∧
      (t.root.safeSize + n < 0 → (t.Cut n).1.root.inorder = [] ∧
        (t.Cut n).2.1.root.inorder = t.root.inorder) := by
  obtain ⟨e1, e2, -⟩ := Cut_spec hI n
  rw [if_pos hn] at e1 e2
  refine ⟨e1, e2, ?_⟩
  intro hneg
  rw [e1, e2, if_pos hneg]
  simp

theorem claim_C10_witness :
    Inv (Treap.mk (fun a b : Nat => decide (a < b))
        (Node.node 0 (1 : Nat) 10 Node.nil Node.nil none 1)) ∧
      ((Treap.mk (fun a b : Nat => decide (a < b))
          (Node.node 0 (1 : Nat) 10 Node.nil Node.nil none 1)).Cut
        (-5)).1.root.inorder = [] := by
  have hI : Inv (Treap.mk (fun a b : Nat => decide (a < b))
      (Node.node 0 (1 : Nat) 10 Node.nil Node.nil none 1)) :=
    InvRoot_newNode 1 10 0
  refine ⟨hI, ?_⟩
  exact ((claim_C10 hI (by decide)).2.2 (by decide)).1

/-- Claim C6: `At` and `Index` are mutually inverse — `At(Index(n)) = n`
for every node `n` stored in the container (a node is addressed by its
root-to-node path, the information carried by its parent chain), and
`Index(At(i)) = i` for every valid index `i`. -/
theorem claim_C6 {t : Treap T} (hz : t.root.sizeOK) :
    (∀ (p : Path) (n : Node T), t.root.subtreeAt p = some n →
        t.At (t.root.Index p) = some n) ∧
      (∀ i : Int, 0 ≤ i → i < t.root.safeSize →
        ∃ (p : Path) (n : Node T), t.root.subtreeAt p = some n ∧
          t.At i = some n ∧ t.root.Index p = i) := by
  have hsz := Node.sizeOK_safeSize hz
  constructor
  · intro p n hp
    obtain ⟨h0, h1, h2⟩ := pathTo_Index p t.root n hz hp
    obtain ⟨-, hb, -⟩ := At_spec hz (t.root.Index p)
    obtain ⟨m, hm1, hm2, -⟩ := hb h0 (by omega)
    rw [h2, hp] at hm2
    rw [hm1]
    exact congrArg some (Option.some.inj hm2).symm
  · intro i h0 h1
    obtain ⟨-, hb, -⟩ := At_spec hz i
    obtain ⟨m, hm1, hm2, -⟩ := hb h0 h1
    refine ⟨pathTo t.root i.toNat, m, hm2, hm1, ?_⟩
    have hidx := Index_pathTo t.root i.toNat hz (by omega)
    rw [hidx]
    omega

theorem claim_C6_witness :
    (Node.node 0 (2 : Nat) 10 (Node.node 1 1 5 Node.nil Node.nil (some 0) 1)
        (Node.node 2 3 4 Node.nil Node.nil (some 0) 1) none 3).sizeOK ∧
      (Treap.mk (fun a b : Nat => decide (a < b))
          (Node.node 0 (2 : Nat) 10
            (Node.node 1 1 5 Node.nil Node.nil (some 0) 1)
            (Node.node 2 3 4 Node.nil Node.nil (some 0) 1) none 3)).At
        ((Node.node 0 (2 : Nat) 10
            (Node.node 1 1 5 Node.nil Node.nil (some 0) 1)
            (Node.node 2 3 4 Node.nil Node.nil (some 0) 1) none 3).Index
          [Dir.left]) =
        some (Node.node 1 1 5 Node.nil Node.nil (some 0) 1) := by
  have hz : (Node.node 0 (2 : Nat) 10
      (Node.node 1 1 5 Node.nil Node.nil (some 0) 1)
      (Node.node 2 3 4 Node.nil Node.nil (some 0) 1) none 3).sizeOK := by
    simp [Node.sizeOK, Node.inorder]
  exact ⟨hz, (claim_C6 hz).1 [Dir.left]
    (Node.node 1 1 5 Node.nil Node.nil (some 0) 1) rfl⟩

/-- Claim C7: when every element of `a` is below a boundary value and
every element of `b` is not, `Merge(a, b)` followed by
`SplitBefore(boundary)` reconstructs the two original element sequences
(hence equal multisets). -/
theorem claim_C7 {a b : Treap T} (hst : IsSTO a.lessFn) (hA : Inv a)
    (hB : Inv b) (hl : b.lessFn = a.lessFn) (bnd : T)
    (hlo : ∀ x ∈ a.root.inorder, a.lessFn x bnd = true)
    (hhi : ∀ y ∈ b.root.inorder, a.lessFn y bnd = false) :
    ((Merge a b).1.SplitBefore bnd).1.root.inorder = a.root.inorder ∧
      ((Merge a b).1.SplitBefore bnd).2.1.root.inorder = b.root.inorder := by
  have hcross : ∀ x ∈ a.root.inorder, ∀ y ∈ b.root.inorder,
      a.lessFn y x = false := by
    intro x hx y hy
    exact lt_false_of_lt_of_not_lt hst (hlo x hx) (hhi y hy)
  have hm : Inv (Merge a b).1 := Merge_Inv hA hB hl hcross
  have hst' : IsSTO (Merge a b).1.lessFn := hst
  obtain ⟨e1, e2, -⟩ := SplitBefore_spec hst' hm bnd
  have hord : (Merge a b).1.root.inorder = a.root.inorder ++ b.root.inorder :=
    inorder_merge _ _
  obtain ⟨h1, h2⟩ := takeWhile_append_of_all hlo hhi
  constructor
  · rw [e1, hord]
    exact h1
  · rw [e2, hord]
    exact h2

theorem claim_C7_witness :
    Inv (Treap.mk (fun a b : Nat => decide (a < b))
        (Node.node 0 (1 : Nat) 10 Node.nil Node.nil none 1)) ∧
      ((Merge (Treap.mk (fun a b : Nat => decide (a < b))
            (Node.node 0 (1 : Nat) 10 Node.nil Node.nil none 1))
          (Treap.mk (fun a b : Nat => decide (a < b))
            (Node.node 1 (2 : Nat) 5 Node.nil Node.nil none 1))).1.SplitBefore
        2).1.root.inorder = [1] := by
  have hA : Inv (Treap.mk (fun a b : Nat => decide (a < b))
      (Node.node 0 (1 : Nat) 10 Node.nil Node.nil none 1)) :=
    InvRoot_newNode 1 10 0
  have hB : Inv (Treap.mk (fun a b : Nat => decide (a < b))
      (Node.node 1 (2 : Nat) 5 Node.nil Node.nil none 1)) :=
    InvRoot_newNode 2 5 1
  have hlo : ∀ x ∈ (Node.node 0 (1 : Nat) 10 Node.nil Node.nil none 1).inorder,
      (fun a b : Nat => decide (a < b)) x 2 = true := by
    intro x hx
    simp [Node.inorder] at hx
    subst hx
    decide
  have hhi : ∀ y ∈ (Node.node 1 (2 : Nat) 5 Node.nil Node.nil none 1).inorder,
      (fun a b : Nat => decide (a < b)) y 2 = false := by
    intro y hy
    simp [Node.inorder] at hy
    subst hy
    decide
  have h := claim_C7 natLtSTO hA hB rfl 2 hlo hhi
  exact ⟨hA, h.1⟩

/-- Claim C9: a negative count makes `EraseLeftmost`/`EraseRightmost`
erase the whole run of elements equal to the value and return its full
length (every member of that run equals the value, and nothing equal to
the value survives), while `EraseAt` panics on a negative count. -/
theorem claim_C9 {t : Treap T} (hst : IsSTO t.lessFn) (hI : Inv t) (v : T)
    {n : Int} (hn : n < 0) :
    (t.EraseLeftmost v n).1 =
        (((t.root.inorder.dropWhile (fun x => t.lessFn x v)).takeWhile
          (fun x => !(t.lessFn v x))).length : Int) ∧
      (t.EraseRightmost v n).1 =
        (((t.root.inorder.dropWhile (fun x => t.lessFn x v)).takeWhile
          (fun x => !(t.lessFn v x))).length : Int) ∧
      (∀ x ∈ (t.root.inorder.dropWhile (fun x => t.lessFn x v)).takeWhile
          (fun x => !(t.lessFn v x)), x = v) ∧
      (t.EraseLeftmost v n).2.root.inorder =
        t.root.inorder.takeWhile (fun x => t.lessFn x v) ++
          (t.root.inorder.dropWhile (fun x => t.lessFn x v)).dropWhile
            (fun x => !(t.lessFn v x)) ∧
      (t.EraseRightmost v n).2.root.inorder =
        t.root.inorder.takeWhile (fun x => t.lessFn x v) ++
          (t.root.inorder.dropWhile (fun x => t.lessFn x v)).dropWhile
            (fun x => !(t.lessFn v x)) ∧
      (∀ x ∈ (t.EraseLeftmost v n).2.root.inorder,
        (t.lessFn x v || t.lessFn v x) = true) ∧
      (∀ (idx c : Int), c < 0 →
        (t.EraseAt idx c).1 = Except.error "count must not be negative") := by
  obtain ⟨a1, a2, a3, a4⟩ := EraseLeftmost_neg_spec hst hI v hn
  obtain ⟨b1, b2⟩ := EraseRightmost_neg_spec hst hI v hn
  exact ⟨a1, b1, a2, a3, b2, a4, fun idx c hc => (EraseAt_neg_count idx hc).1⟩

theorem claim_C9_witness :
    Inv (Treap.mk (fun a b : Nat => decide (a < b))
        (Node.node 0 (1 : Nat) 10 Node.nil Node.nil none 1)) ∧
      ((Treap.mk (fun a b : Nat => decide (a < b))
        (Node.node 0 (1 : Nat) 10 Node.nil Node.nil none 1)).EraseLeftmost
        1 (-1)).1 = 1 := by
  have hI : Inv (Treap.mk (fun a b : Nat => decide (a < b))
      (Node.node 0 (1 : Nat) 10 Node.nil Node.nil none 1)) :=
    InvRoot_newNode 1 10 0
  refine ⟨hI, ?_⟩
  have h := claim_C9 natLtSTO hI 1 (show (-1 : Int) < 0 by decide)
  rw [h.1]
  decide

/-- Claim C1: for every constructor input and every sequence of
`InsertLeft`/`InsertRight` calls under a strict total order comparator,
the in-order traversal equals the corresponding fold of list-level
insertions (`InsertLeft` places a value before all equals already
present, `InsertRight` after them); the traversal is sorted by the
comparator and is a permutation of all supplied values. -/
theorem claim_C1 {lt : T → T → Bool} (hst : IsSTO lt) (values : List T)
    (prios : Nat → Int) (ids : Nat → Nat) (ops : List (InsOp T)) :
    (applyInsList (NewTreapWithRand lt values prios ids) ops).root.inorder =
        ops.foldl (listIns lt) (values.mergeSort (fun a b => !(lt b a))) ∧
      Sorted lt
        (applyInsList (NewTreapWithRand lt values prios ids) ops).root.inorder ∧
      (applyInsList (NewTreapWithRand lt values prios ids) ops).root.inorder.Perm
        (values ++ ops.map insValue) := by
  obtain ⟨c1, c2, c3⟩ := NewTreapWithRand_spec hst values prios ids
  obtain ⟨f1, f2, f3⟩ := applyInsList_spec ops
    (NewTreapWithRand lt values prios ids) (by rwa [c3]) c2
  refine ⟨?_, ?_, ?_⟩
  · rw [f1, c3, c1]
  · have hs := f2.1
    rwa [f3, c3] at hs
  · rw [f1, c3, c1]
    refine (foldl_listIns_perm ops _).trans ?_
    exact (List.mergeSort_perm values _).append_right _

theorem claim_C1_witness :
    IsSTO (fun a b : Nat => decide (a < b)) ∧
      (applyInsList (NewTreapWithRand (fun a b : Nat => decide (a < b))
          [] (fun _ => 0) (fun i => i))
        [InsOp.right 5 3 1, InsOp.left 3 2 2, InsOp.left 5 9 3]).root.inorder
        = [3, 5, 5] := by
  refine ⟨natLtSTO, ?_⟩
  have h := claim_C1 natLtSTO ([] : List Nat) (fun _ => 0) (fun i => i)
    [InsOp.right 5 3 1, InsOp.left 3 2 2, InsOp.left 5 9 3]
  rw [h.1]
  simp only [List.mergeSort_nil]
  decide

/-- Claim C2: after every public mutating container operation completes
(each used within its documented contract), every container alive —
receiver post-state and any freshly produced containers — satisfies all
four structural invariants bundled in `Inv`: the in-order traversal is
non-decreasing under the comparator, every node's priority is at least
its children's, every cached size is the subtree's node count, and every
child's parent field holds the id of the node owning it with the root's
parent absent.  Also covers the free `Merge` (within its order-disjoint
contract) and the constructor. -/
theorem claim_C2 (t : Treap T) (hst : IsSTO t.lessFn) (hI : Inv t) :
    (∀ op : Op T, ∀ u ∈ applyOp t op, Inv u ∧ u.lessFn = t.lessFn) ∧
      (∀ b : Treap T, Inv b → b.lessFn = t.lessFn →
        (∀ x ∈ t.root.inorder, ∀ y ∈ b.root.inorder, t.lessFn y x = false) →
        Inv (Merge t b).1) ∧
      (∀ (lt : T → T → Bool) (values : List T) (prios : Nat → Int)
        (ids : Nat → Nat), IsSTO lt →
        Inv (NewTreapWithRand lt values prios ids)) := by
  refine ⟨?_, ?_, ?_⟩
  · intro op u hu
    cases op with
    | insertLeft v prio id =>
      simp only [applyOp, List.mem_singleton] at hu
      subst hu
      obtain ⟨-, h2, h3, -⟩ := InsertLeft_spec hst hI v prio id
      exact ⟨h2, h3⟩
    | insertRight v prio id =>
      simp only [applyOp, List.mem_singleton] at hu
      subst hu
      obtain ⟨-, h2, h3, -⟩ := InsertRight_spec hst hI v prio id
      exact ⟨h2, h3⟩
    | eraseAll v =>
      simp only [applyOp, List.mem_singleton] at hu
      subst hu
      exact EraseAll_spec hst hI v
    | eraseLeftmost v n =>
      simp only [applyOp, List.mem_singleton] at hu
      subst hu
      exact EraseLeftmost_Inv hst hI v n
    | eraseRightmost v n =>
      simp only [applyOp, List.mem_singleton] at hu
      subst hu
      exact EraseRightmost_Inv hst hI v n
    | eraseRange s iS e iE =>
      simp only [applyOp, List.mem_singleton] at hu
      subst hu
      exact EraseRange_Inv hst hI s e iS iE
    | eraseAt i c =>
      simp only [applyOp, List.mem_singleton] at hu
      subst hu
      exact EraseAt_Inv hI i c
    | popLeftmost =>
      simp only [applyOp, List.mem_singleton] at hu
      subst hu
      exact PopLeftmost_Inv hI
    | popRightmost =>
      simp only [applyOp, List.mem_singleton] at hu
      subst hu
      exact PopRightmost_Inv hI
    | clear =>
      simp only [applyOp, List.mem_singleton] at hu
      subst hu
      exact Clear_Inv t
    | splitBefore v =>
      obtain ⟨-, -, i1, i2, i3, l1, l2, -⟩ := SplitBefore_spec hst hI v
      simp only [applyOp, List.mem_cons, List.mem_singleton,
        List.not_mem_nil, or_false] at hu
      rcases hu with rfl | rfl | rfl
      · exact ⟨i1, l1⟩
      · exact ⟨i2, l2⟩
      · exact ⟨i3, rfl⟩
    | splitAfter v =>
      obtain ⟨-, -, i1, i2, i3, l1, l2, -⟩ := SplitAfter_spec hst hI v
      simp only [applyOp, List.mem_cons, List.mem_singleton,
        List.not_mem_nil, or_false] at hu
      rcases hu with rfl | rfl | rfl
      · exact ⟨i1, l1⟩
      · exact ⟨i2, l2⟩
      · exact ⟨i3, rfl⟩
    | cut n =>
      obtain ⟨-, -, i1, i2, i3, l1, l2, -⟩ := Cut_spec hI n
      simp only [applyOp, List.mem_cons, List.mem_singleton,
        List.not_mem_nil, or_false] at hu
      rcases hu with rfl | rfl | rfl
      · exact ⟨i1, l1⟩
      · exact ⟨i2, l2⟩
      · exact ⟨i3, rfl⟩
  · intro b hB hl hcross
    exact Merge_Inv hI hB hl hcross
  · intro lt values prios ids hst'
    exact (NewTreapWithRand_spec hst' values prios ids).2.1

theorem claim_C2_witness :
    Inv (Treap.mk (fun a b : Nat => decide (a < b)) Node.nil) ∧
      Inv ((Treap.mk (fun a b : Nat => decide (a < b)) Node.nil).InsertLeft
        5 7 0).2 := by
  have hI : Inv (Treap.mk (fun a b : Nat => decide (a < b)) Node.nil) :=
    InvRoot_nil
  refine ⟨hI, ?_⟩
  have h := (claim_C2 (Treap.mk (fun a b : Nat => decide (a < b)) Node.nil)
    natLtSTO hI).1 (Op.insertLeft 5 7 0)
    ((Treap.mk (fun a b : Nat => decide (a < b)) Node.nil).InsertLeft 5 7 0).2
    (List.mem_singleton.2 rfl)
  exact h.1

end Claims

end Gotreap
